import Mathlib

/-!
Verification of the `robin-table` Robin Hood hash table (`src/robin_table.c`)
against its natural-language specification.

Modelling conventions (shallow embedding of the C source):

* A key is the byte string passed as `(key, klen)`; we model it as `List Nat`.
  A NULL key pointer (the marker for an empty slot) is modelled by `[]`; the
  public API asserts `klen != 0`, so a genuine key is never the empty string.
  The `klen` field of a slot therefore equals `key.length` in the model.
* Values are `void*` pointers modelled as `Nat`, with `0` standing for NULL.
* Hashes and seeds are modelled as `Nat`; the table only ever uses a hash
  through `hash & mask` and through equality, so no 64-bit truncation is
  applied at the table level (the hash strategy is an external collaborator).
* `size_t` arithmetic is modelled on `Nat`.  The two places where 64-bit
  wraparound is reachable from the public interface (`robin_table_next_pow2`
  and the `count * 100` product in `robin_table_calc_bucket_count`) model the
  wraparound explicitly with `% 2 ^ 64`.
* `calloc`/`malloc` failure is modelled by a boolean allocation oracle
  (`allocOk`) passed to the operations that allocate.
* The C probe loops (`robin_table_put0`, `robin_table_get_bucket`, the
  backward-shift loop of `robin_table_del`) are unbounded `while (1)` loops;
  they are modelled with explicit fuel, returning `none` when fuel runs out.
  Under the table invariants the fuel `bucket_count + 1` is proved sufficient,
  so `none` is unreachable from well-formed states.
-/

set_option maxHeartbeats 1600000
set_option maxRecDepth 8000

namespace RobinHood

/-- A bucket slot (`robin_bucket_t`): key bytes (empty list = NULL pointer =
empty slot), value pointer, probe sequence length, and the cached 64-bit hash.
The C `klen` field is `key.length` in this model. -/
structure Bucket where
  key : List Nat
  val : Nat
  psl : Nat
  hash : Nat
deriving DecidableEq

/-- A zeroed slot, as produced by `calloc`/`memset`. -/
def emptyBucket : Bucket := ⟨[], 0, 0, 0⟩

/-- The table state (`struct robin_table_t`).  The hash strategy is stored as
a function from key bytes and seed to the hash value. -/
structure RobinTable where
  buckets : List Bucket
  count : Nat
  bucket_count : Nat
  init_buckets : Nat
  mask : Nat
  expand_at : Nat
  shrink_at : Nat
  seed : Nat
  hash_func : List Nat → Nat → Nat

/-- `RT_BUCKET_COUNT_MIN`. -/
def RT_BUCKET_COUNT_MIN : Nat := 32

/-- `RT_LOAD_FACTOR_PCT_MAX`. -/
def RT_LOAD_FACTOR_PCT_MAX : Nat := 75

/-- `RT_LOAD_FACTOR_PCT_MIN`. -/
def RT_LOAD_FACTOR_PCT_MIN : Nat := 25

/-- Slot access `rt->buckets + idx`; out-of-range access (never reachable
under the invariants) yields the zero slot. -/
def bucketAt (B : List Bucket) (i : Nat) : Bucket := B.getD i emptyBucket

/-- `robin_table_next_pow2`: round `n` to the next highest power of two using
the bit-smearing trick on 64-bit `size_t` arithmetic (the `--n` and `++n`
steps wrap modulo `2 ^ 64`; the shifts and ors cannot overflow). -/
def robin_table_next_pow2 (n : Nat) : Nat :=
  let n1 := (n + (2 ^ 64 - 1)) % 2 ^ 64
  let n2 := n1 ||| (n1 >>> 1)
  let n3 := n2 ||| (n2 >>> 2)
  let n4 := n3 ||| (n3 >>> 4)
  let n5 := n4 ||| (n4 >>> 8)
  let n6 := n5 ||| (n5 >>> 16)
  let n7 := n6 ||| (n6 >>> 32)
  (n7 + 1) % 2 ^ 64

/-- The pure bit-smearing cascade of `robin_table_next_pow2` (the six
or-with-shift steps, without the surrounding decrement and increment);
`robin_table_next_pow2 n` equals `(bit_smear ((n + 2 ^ 64 - 1) % 2 ^ 64) + 1)
% 2 ^ 64` by definitional unfolding. -/
def bit_smear (x : Nat) : Nat :=
  let n2 := x ||| (x >>> 1)
  let n3 := n2 ||| (n2 >>> 2)
  let n4 := n3 ||| (n3 >>> 4)
  let n5 := n4 ||| (n4 >>> 8)
  let n6 := n5 ||| (n5 >>> 16)
  n6 ||| (n6 >>> 32)

/-- `robin_table_calc_bucket_count`: apply the maximum load factor, floor at
`RT_BUCKET_COUNT_MIN`, otherwise round up to the next power of two.  The
product `count * 100` is `size_t` arithmetic and wraps modulo `2 ^ 64`. -/
def robin_table_calc_bucket_count (count : Nat) : Nat :=
  let bucket_count := ((count * 100) % 2 ^ 64) / RT_LOAD_FACTOR_PCT_MAX
  if bucket_count < RT_BUCKET_COUNT_MIN then RT_BUCKET_COUNT_MIN
  else robin_table_next_pow2 bucket_count

/-- `robin_table_create`.  The C function takes an optional hash function
(NULL selects the default external strategy); the model always receives the
selected strategy explicitly.  Allocation failure of the table header or the
bucket array returns NULL in C and produces no table; the claims under proof
only concern successfully created tables, so creation is modelled total. -/
def robin_table_create (count : Nat) (hash_func : List Nat → Nat → Nat)
    (seed : Nat) : RobinTable :=
  let bc := robin_table_calc_bucket_count count
  { buckets := List.replicate bc emptyBucket
    count := 0
    bucket_count := bc
    init_buckets := bc
    mask := bc - 1
    expand_at := bc * RT_LOAD_FACTOR_PCT_MAX / 100
    shrink_at := bc * RT_LOAD_FACTOR_PCT_MIN / 100
    seed := seed
    hash_func := hash_func }

/-- The `while (1)` loop of `robin_table_put0`, with fuel.  `entry` is the
candidate being carried, `v0` the value passed to `robin_table_put0` (the C
code returns the local `val`, not `entry.val`, when it finally inserts).
Returns the updated bucket array, whether a fresh insertion happened, and the
returned value. -/
def robin_table_put0_loop (mask : Nat) (buckets : List Bucket) (entry : Bucket)
    (v0 : Nat) (idx : Nat) : Nat → Option (List Bucket × Bool × Nat)
  | 0 => none
  | fuel + 1 =>
    let bucket := bucketAt buckets idx
    if bucket.key = [] then
      some (buckets.set idx entry, true, v0)
    else if bucket.hash = entry.hash ∧ bucket.key.length = entry.key.length ∧
        bucket.key = entry.key then
      some (buckets, false, bucket.val)
    else if bucket.psl < entry.psl then
      robin_table_put0_loop mask (buckets.set idx entry)
        { bucket with psl := bucket.psl + 1 } v0 ((idx + 1) &&& mask) fuel
    else
      robin_table_put0_loop mask buckets { entry with psl := entry.psl + 1 }
        v0 ((idx + 1) &&& mask) fuel

/-- `robin_table_put0`: insert without resizing.  Computes the hash, builds
the candidate entry with `psl = 0`, and runs the probe loop starting at
`hash & mask`. -/
def robin_table_put0 (rt : RobinTable) (key : List Nat) (v : Nat) :
    Option (RobinTable × Nat) :=
  let hash := rt.hash_func key rt.seed
  let entry : Bucket := { key := key, val := v, psl := 0, hash := hash }
  match robin_table_put0_loop rt.mask rt.buckets entry v (hash &&& rt.mask)
      (rt.bucket_count + 1) with
  | none => none
  | some (b, inserted, r) =>
    some ({ rt with
              buckets := b
              count := if inserted then rt.count + 1 else rt.count }, r)

/-- `robin_table_resize`: allocate a zeroed bucket array of the requested
size, reset the counters and thresholds, and reinsert every occupied entry of
the old array in index order through `robin_table_put0`.  Result: `some none`
when `calloc` fails (table left unchanged by the caller), `some (some rt')`
on success, `none` only on fuel exhaustion inside a reinsertion (unreachable
from well-formed states). -/
def robin_table_resize_step (acc : Option RobinTable) (bucket : Bucket) :
    Option RobinTable :=
  match acc with
  | none => none
  | some rt2 =>
    if bucket.key = [] then some rt2
    else (robin_table_put0 rt2 bucket.key bucket.val).map Prod.fst

def robin_table_resize (allocOk : Bool) (rt : RobinTable) (bucket_count : Nat) :
    Option (Option RobinTable) :=
  if allocOk = false then some none
  else
    let rt1 : RobinTable :=
      { rt with buckets := List.replicate bucket_count emptyBucket
                count := 0
                bucket_count := bucket_count
                mask := bucket_count - 1
                expand_at := bucket_count * RT_LOAD_FACTOR_PCT_MAX / 100
                shrink_at := bucket_count * RT_LOAD_FACTOR_PCT_MIN / 100 }
    (rt.buckets.foldl robin_table_resize_step (some rt1)).map some

/-- `robin_table_put`: grow (doubling) when `count >= expand_at`; on resize
allocation failure return NULL leaving the table unchanged; otherwise insert
through `robin_table_put0`. -/
def robin_table_put (allocOk : Bool) (rt : RobinTable) (key : List Nat)
    (v : Nat) : Option (RobinTable × Nat) :=
  if rt.expand_at ≤ rt.count then
    match robin_table_resize allocOk rt (rt.bucket_count <<< 1) with
    | none => none
    | some none => some (rt, 0)
    | some (some rt1) => robin_table_put0 rt1 key v
  else
    robin_table_put0 rt key v

/-- The probe loop of `robin_table_get_bucket`, with fuel.  Returns
`some (some i)` when the key is found in slot `i`, `some none` when probing
stops at an empty or rich bucket, `none` on fuel exhaustion. -/
def robin_table_get_bucket_loop (rt : RobinTable) (key : List Nat) (hash : Nat)
    (idx psl : Nat) : Nat → Option (Option Nat)
  | 0 => none
  | fuel + 1 =>
    let bucket := bucketAt rt.buckets idx
    if bucket.hash = hash ∧ bucket.key.length = key.length ∧
        bucket.key = key then
      some (some idx)
    else if bucket.key = [] ∨ bucket.psl < psl then
      some none
    else
      robin_table_get_bucket_loop rt key hash ((idx + 1) &&& rt.mask) (psl + 1)
        fuel

/-- `robin_table_get_bucket`: search using the Robin Hood invariant. -/
def robin_table_get_bucket (rt : RobinTable) (key : List Nat) :
    Option (Option Nat) :=
  let hash := rt.hash_func key rt.seed
  robin_table_get_bucket_loop rt key hash (hash &&& rt.mask) 0
    (rt.bucket_count + 1)

/-- `robin_table_get`: the found slot's value, or NULL (0). -/
def robin_table_get (rt : RobinTable) (key : List Nat) : Option Nat :=
  match robin_table_get_bucket rt key with
  | none => none
  | some (some idx) => some (bucketAt rt.buckets idx).val
  | some none => some 0

/-- The backward-shift loop of `robin_table_del`, with fuel.  `bidx` is the
slot being vacated.  The C code decrements `next_bucket->psl` in place and
then copies `*next_bucket` into the vacated slot, so on a shift step both
slots momentarily hold the decremented entry; on the stop condition the
vacated slot is zeroed.  The `--rt->count` performed in the stop branch is
applied by the caller `robin_table_del`. -/
def robin_table_del_loop (mask : Nat) (buckets : List Bucket) (bidx : Nat) :
    Nat → Option (List Bucket)
  | 0 => none
  | fuel + 1 =>
    let idx := (bidx + 1) &&& mask
    let next := bucketAt buckets idx
    if next.key = [] ∨ next.psl = 0 then
      some (buckets.set bidx emptyBucket)
    else
      let shifted := { next with psl := next.psl - 1 }
      robin_table_del_loop mask ((buckets.set idx shifted).set bidx shifted)
        idx fuel

/-- `robin_table_del`: locate the key as in lookup; if absent return NULL
leaving the table untouched; otherwise remember the value, perform the
backward shift, decrement the count, and finally shrink (halving) when the
bucket count exceeds the initial one and the count has dropped to the shrink
threshold, ignoring shrink allocation failure. -/
def robin_table_del (allocOk : Bool) (rt : RobinTable) (key : List Nat) :
    Option (RobinTable × Nat) :=
  match robin_table_get_bucket rt key with
  | none => none
  | some none => some (rt, 0)
  | some (some bidx) =>
    let val := (bucketAt rt.buckets bidx).val
    match robin_table_del_loop rt.mask rt.buckets bidx (rt.bucket_count + 1)
        with
    | none => none
    | some b =>
      let rt1 := { rt with buckets := b, count := rt.count - 1 }
      if rt1.init_buckets < rt1.bucket_count ∧ rt1.count ≤ rt1.shrink_at then
        match robin_table_resize allocOk rt1 (rt1.bucket_count >>> 1) with
        | none => none
        | some none => some (rt1, val)
        | some (some rt2) => some (rt2, val)
      else
        some (rt1, val)

/-- `robin_table_clear`: zero every slot and reset the count; when
`update_buckets` is set, first reallocate the bucket array back to the
initial capacity (on `malloc` failure return `false` = `none`, table left
entirely unchanged). -/
def robin_table_clear (allocOk : Bool) (rt : RobinTable)
    (update_buckets : Bool) : Option RobinTable :=
  if update_buckets then
    if allocOk = false then none
    else
      let bc := rt.init_buckets
      some { rt with buckets := List.replicate bc emptyBucket
                     count := 0
                     bucket_count := bc
                     mask := bc - 1
                     expand_at := bc * RT_LOAD_FACTOR_PCT_MAX / 100
                     shrink_at := bc * RT_LOAD_FACTOR_PCT_MIN / 100 }
  else
    some { rt with count := 0
                   buckets := List.replicate rt.bucket_count emptyBucket }

/-- `robin_table_count`. -/
def robin_table_count (rt : RobinTable) : Nat := rt.count

/-!
Spec-side definitions.  These two definitions are transcribed from the words
of the specification (not from the source); they exist only to be compared
with the corresponding source-derived definitions in refinement claims.
-/

/-- Spec section 4.1, transcribed: `target_capacity(n)`:
`raw = ceil(n * 100 / MAX_LOAD_PCT)`; if `raw < MIN_BUCKETS` return
`MIN_BUCKETS`; else return the next power of two `≥ raw`.  The next power of
two at or above `raw` is `2 ^ Nat.clog 2 raw`. -/
def target_capacity (n : Nat) : Nat :=
  let raw := (n * 100 + (RT_LOAD_FACTOR_PCT_MAX - 1)) / RT_LOAD_FACTOR_PCT_MAX
  if raw < RT_BUCKET_COUNT_MIN then RT_BUCKET_COUNT_MIN
  else 2 ^ Nat.clog 2 raw

/-- Spec section 4.4, transcribed: the backward shift starting from the freed
index.  For each subsequent slot (wrapping modulo `bucket_count`): if it is
empty or its psl is 0, zero the freed slot, decrement `entry_count`, and
stop; otherwise decrement that slot's psl by one and move it one position
back into the slot being vacated, then continue the shift from the
now-vacated next slot.  Fueled like the source loop. -/
def backward_shift_spec (bucket_count : Nat) (buckets : List Bucket)
    (freed : Nat) (entry_count : Nat) : Nat → Option (List Bucket × Nat)
  | 0 => none
  | fuel + 1 =>
    let nextIdx := (freed + 1) % bucket_count
    let slot := bucketAt buckets nextIdx
    if slot.key = [] ∨ slot.psl = 0 then
      some (buckets.set freed emptyBucket, entry_count - 1)
    else
      backward_shift_spec bucket_count
        (buckets.set freed { slot with psl := slot.psl - 1 }) nextIdx
        entry_count fuel

/-!
Operation sequences over a table.  Each mutating operation carries its own
allocation-oracle flag.  A call that violates the asserted preconditions
(`key != NULL && klen != 0`) is a fatal contract violation in the C code and
is modelled as a no-op here, so that sequences are total.  The model of each
operation returns `none` only on fuel exhaustion, which is unreachable from
well-formed states; `applyOp` keeps the table unchanged in that case.
-/

/-- A public mutating-or-reading operation on the table. -/
inductive TableOp where
  | put (allocOk : Bool) (key : List Nat) (v : Nat)
  | get (key : List Nat)
  | del (allocOk : Bool) (key : List Nat)
  | clear (allocOk : Bool) (update_buckets : Bool)

/-- Apply one operation to the table state. -/
def applyOp (rt : RobinTable) : TableOp → RobinTable
  | .put a k v => if k = [] then rt else ((robin_table_put a rt k v).map Prod.fst).getD rt
  | .get _ => rt
  | .del a k => if k = [] then rt else ((robin_table_del a rt k).map Prod.fst).getD rt
  | .clear a u => (robin_table_clear a rt u).getD rt

/-- Apply a sequence of operations, left to right. -/
def applyOps (ops : List TableOp) (rt : RobinTable) : RobinTable :=
  ops.foldl applyOp rt

/-- An operation that neither touches key `k` nor clears the table. -/
def avoidsKey (k : List Nat) : TableOp → Prop
  | .put _ k2 _ => k2 ≠ k
  | .get _ => True
  | .del _ k2 => k2 ≠ k
  | .clear _ _ => False

/-!
Table invariants.  `bucketAt B i` for `i < N` is the slot at index `i`; a
slot is occupied iff its key is nonempty (NULL key pointer = empty slot).
-/

/-- Number of occupied slots. -/
def countOcc (B : List Bucket) : Nat := B.countP (fun b => !b.key.isEmpty)

/-- Key `kk` is stored (in some slot) with value `vv`. -/
def hasKeyVal (B : List Bucket) (kk : List Nat) (vv : Nat) : Prop :=
  ∃ i, i < B.length ∧ (bucketAt B i).key = kk ∧ (bucketAt B i).val = vv

/-- Key `kk` is stored in some slot. -/
def hasKey (B : List Bucket) (kk : List Nat) : Prop :=
  ∃ i, i < B.length ∧ (bucketAt B i).key = kk

/-- PSL/position consistency: every occupied slot at index `i` satisfies
`psl < N` and `(ideal + psl) % N = i` where `ideal = hash % N`; this is the
mod-`N` form of `psl = (i - (hash & mask)) mod N`. -/
def pslPos (B : List Bucket) (N : Nat) : Prop :=
  ∀ i, i < N → (bucketAt B i).key ≠ [] →
    (bucketAt B i).psl < N ∧
    ((bucketAt B i).hash % N + (bucketAt B i).psl) % N = i

/-- The Robin Hood chain invariant: for every occupied slot with displacement
`psl`, each of the `psl` slots between its ideal index and its position is
occupied with displacement at least its own distance from that ideal index. -/
def chainOK (B : List Bucket) (N : Nat) : Prop :=
  ∀ i, i < N → (bucketAt B i).key ≠ [] →
    ∀ d, d < (bucketAt B i).psl →
      (bucketAt B ((((bucketAt B i).hash % N) + d) % N)).key ≠ [] ∧
      d ≤ (bucketAt B ((((bucketAt B i).hash % N) + d) % N)).psl

/-- No key is stored twice. -/
def uniqKeys (B : List Bucket) (N : Nat) : Prop :=
  ∀ i, i < N → ∀ j, j < N → i ≠ j → (bucketAt B i).key ≠ [] →
    (bucketAt B j).key ≠ [] → (bucketAt B i).key ≠ (bucketAt B j).key

/-- Every occupied slot caches the hash of its own key. -/
def hashCached (B : List Bucket) (N : Nat) (hf : List Nat → Nat → Nat)
    (seed : Nat) : Prop :=
  ∀ i, i < N → (bucketAt B i).key ≠ [] →
    (bucketAt B i).hash = hf (bucketAt B i).key seed

/-- The local (adjacent-pair) form of the chain invariant: an occupied slot
with positive displacement has an occupied left neighbour displaced by at
least one less. -/
def pairOK (B : List Bucket) (N : Nat) (i : Nat) : Prop :=
  (bucketAt B ((i + 1) % N)).key ≠ [] → 1 ≤ (bucketAt B ((i + 1) % N)).psl →
    (bucketAt B i).key ≠ [] ∧
    (bucketAt B ((i + 1) % N)).psl - 1 ≤ (bucketAt B i).psl

/-- Bucket-array level well-formedness (everything `robin_table_put0` and the
probe loops need): length, power-of-two size with `mask = N - 1`, the count
field matching occupancy, a free slot, and the probe invariants. -/
def WFb (rt : RobinTable) : Prop :=
  rt.buckets.length = rt.bucket_count ∧
  rt.bucket_count = 2 ^ Nat.log2 rt.bucket_count ∧
  rt.mask = rt.bucket_count - 1 ∧
  rt.count = countOcc rt.buckets ∧
  rt.count < rt.bucket_count ∧
  pslPos rt.buckets rt.bucket_count ∧
  chainOK rt.buckets rt.bucket_count ∧
  uniqKeys rt.buckets rt.bucket_count ∧
  hashCached rt.buckets rt.bucket_count rt.hash_func rt.seed

/-- Full well-formedness: `WFb` plus the capacity policy fields. -/
def WF (rt : RobinTable) : Prop :=
  WFb rt ∧
  RT_BUCKET_COUNT_MIN ≤ rt.init_buckets ∧
  rt.init_buckets = 2 ^ Nat.log2 rt.init_buckets ∧
  rt.init_buckets ≤ rt.bucket_count ∧
  rt.expand_at = rt.bucket_count * RT_LOAD_FACTOR_PCT_MAX / 100 ∧
  rt.shrink_at = rt.bucket_count * RT_LOAD_FACTOR_PCT_MIN / 100

/-- Simulation relation between two tables that differ only in the injected
hash strategy and seed: both well-formed, equal counts and capacities, and
the same stored key/value bindings (possibly laid out differently). -/
def SimR (rt rt' : RobinTable) : Prop :=
  WF rt ∧ WF rt' ∧ rt.count = rt'.count ∧
  rt.bucket_count = rt'.bucket_count ∧
  rt.init_buckets = rt'.init_buckets ∧
  (∀ kk vv, kk ≠ [] →
    (hasKeyVal rt.buckets kk vv ↔ hasKeyVal rt'.buckets kk vv))

/-!
Helper lemmas: slot access, occupancy counting, modular index arithmetic,
powers of two, and the equivalence between the local (adjacent-pair) and
global forms of the Robin Hood chain invariant.
-/

theorem bucketAt_set_self {B : List Bucket} {i : Nat} (h : i < B.length)
    (b : Bucket) : bucketAt (B.set i b) i = b := by
  simp [bucketAt, List.getD_eq_getElem?_getD, List.getElem?_set_self h]

theorem bucketAt_set_ne {B : List Bucket} {i j : Nat} (h : i ≠ j)
    (b : Bucket) : bucketAt (B.set i b) j = bucketAt B j := by
  simp [bucketAt, List.getD_eq_getElem?_getD, List.getElem?_set_ne h]

theorem bucketAt_replicate_empty {n i : Nat} :
    bucketAt (List.replicate n emptyBucket) i = emptyBucket := by
  simp only [bucketAt, List.getD_eq_getElem?_getD, List.getElem?_replicate]
  split <;> rfl

theorem countOcc_cons (x : Bucket) (xs : List Bucket) :
    countOcc (x :: xs) = countOcc xs + (if x.key = [] then 0 else 1) := by
  by_cases hk : x.key = [] <;> simp [countOcc, List.countP_cons, hk]

theorem countOcc_set :
    ∀ (B : List Bucket) (i : Nat) (b : Bucket), i < B.length →
      countOcc (B.set i b) + (if (bucketAt B i).key = [] then 0 else 1) =
        countOcc B + (if b.key = [] then 0 else 1)
  | [], i, b, h => by simp at h
  | x :: xs, 0, b, h => by
    simp only [List.set, countOcc_cons, bucketAt, List.getD_cons_zero]
    omega
  | x :: xs, i + 1, b, h => by
    have ih := countOcc_set xs i b (by simpa using h)
    simp only [List.set, countOcc_cons, bucketAt, List.getD_cons_succ]
    simp only [bucketAt] at ih
    omega

theorem countOcc_set_occ {B : List Bucket} {i : Nat} {b : Bucket}
    (h : i < B.length) (h1 : (bucketAt B i).key ≠ []) (h2 : b.key ≠ []) :
    countOcc (B.set i b) = countOcc B := by
  have hs := countOcc_set B i b h
  rw [if_neg h1, if_neg h2] at hs
  omega

theorem countOcc_set_insert {B : List Bucket} {i : Nat} {b : Bucket}
    (h : i < B.length) (h1 : (bucketAt B i).key = []) (h2 : b.key ≠ []) :
    countOcc (B.set i b) = countOcc B + 1 := by
  have hs := countOcc_set B i b h
  rw [if_pos h1, if_neg h2] at hs
  omega

theorem countOcc_set_erase {B : List Bucket} {i : Nat}
    (h : i < B.length) (h1 : (bucketAt B i).key ≠ []) :
    countOcc B = countOcc (B.set i emptyBucket) + 1 := by
  have hs := countOcc_set B i emptyBucket h
  have he : emptyBucket.key = ([] : List Nat) := rfl
  rw [if_neg h1, if_pos he] at hs
  omega

theorem countOcc_replicate {n : Nat} :
    countOcc (List.replicate n emptyBucket) = 0 := by
  simp [countOcc, emptyBucket]

theorem countOcc_le_length (B : List Bucket) : countOcc B ≤ B.length :=
  List.countP_le_length _

theorem bucketAt_mem {B : List Bucket} {i : Nat} (h : i < B.length) :
    bucketAt B i ∈ B := by
  have : bucketAt B i = B[i] := by
    simp [bucketAt, List.getD_eq_getElem?_getD, List.getElem?_eq_getElem h]
  rw [this]
  exact List.getElem_mem h

/-- If fewer slots are occupied than the array holds, some slot is empty. -/
theorem exists_empty_slot {B : List Bucket} {N : Nat} (hlen : B.length = N)
    (hlt : countOcc B < N) : ∃ j, j < N ∧ (bucketAt B j).key = [] := by
  by_contra hc
  push_neg at hc
  have hall : ∀ b ∈ B, (!b.key.isEmpty) = true := by
    intro b hb
    obtain ⟨i, hi, hib⟩ := List.getElem_of_mem hb
    have hx : bucketAt B i = b := by
      simp [bucketAt, List.getD_eq_getElem?_getD, List.getElem?_eq_getElem hi,
        hib]
    have hocc := hc i (by omega)
    rw [hx] at hocc
    simpa using hocc
  have : countOcc B = B.length := List.countP_eq_length.mpr hall
  omega

theorem mod_cancel_left {N a b c : Nat} (hb : b < N) (hc : c < N)
    (h : (a + b) % N = (a + c) % N) : b = c := by
  have h2 : a + b ≡ a + c [MOD N] := h
  have h3 : b ≡ c [MOD N] := Nat.ModEq.add_left_cancel' a h2
  have h4 : b % N = c % N := h3
  rwa [Nat.mod_eq_of_lt hb, Nat.mod_eq_of_lt hc] at h4

/-- Any target index is reached from `idx` by some forward distance `< N`. -/
theorem exists_dist {N idx j : Nat} (hN : 0 < N) (hidx : idx ≤ N) (hj : j < N) :
    ∃ d, d < N ∧ (idx + d) % N = j := by
  refine ⟨(j + N - idx) % N, Nat.mod_lt _ hN, ?_⟩
  have h1 : (idx + (j + N - idx) % N) % N = (idx + (j + N - idx)) % N :=
    Nat.add_mod_mod idx (j + N - idx) N
  have h2 : idx + (j + N - idx) = j + N := by omega
  rw [h1, h2, Nat.add_mod_right, Nat.mod_eq_of_lt hj]

theorem land_mask {N : Nat} (hpow : N = 2 ^ Nat.log2 N) (x : Nat) :
    x &&& (N - 1) = x % N := by
  rw [hpow]
  exact Nat.and_pow_two_sub_one_eq_mod x (Nat.log2 N)

theorem pow2_pos {N : Nat} (hpow : N = 2 ^ Nat.log2 N) : 0 < N := by
  rw [hpow]
  exact Nat.pos_pow_of_pos _ (by norm_num)

theorem pow2_of_exists {N k : Nat} (h : N = 2 ^ k) :
    N = 2 ^ Nat.log2 N := by
  subst h
  rw [Nat.log2_eq_log_two, Nat.log_pow (by norm_num)]

theorem pow2_shiftLeft {N : Nat} (hpow : N = 2 ^ Nat.log2 N) :
    N <<< 1 = 2 ^ Nat.log2 (N <<< 1) := by
  have h : N <<< 1 = 2 ^ (Nat.log2 N + 1) := by
    rw [Nat.shiftLeft_eq]
    conv_rhs => rw [pow_succ, ← hpow]
  exact pow2_of_exists h

theorem pow2_half {N : Nat} (hpow : N = 2 ^ Nat.log2 N) (h2 : 2 ≤ N) :
    N >>> 1 = 2 ^ Nat.log2 (N >>> 1) ∧ N = 2 * (N >>> 1) := by
  have hk : 1 ≤ Nat.log2 N := by
    by_contra hk
    have h0 : Nat.log2 N = 0 := by omega
    rw [h0, pow_zero] at hpow
    omega
  obtain ⟨m, hm⟩ : ∃ m, Nat.log2 N = m + 1 := ⟨Nat.log2 N - 1, by omega⟩
  have hN : N = 2 ^ (m + 1) := by rw [← hm]; exact hpow
  have hp : (2 : Nat) ^ (m + 1) = 2 ^ m * 2 := pow_succ 2 m
  have h : N >>> 1 = 2 ^ m := by
    rw [Nat.shiftRight_eq_div_pow, hN, pow_one, hp]
    omega
  exact ⟨pow2_of_exists h, by rw [h, hN, hp]; ring⟩

/-- For powers of two, strictly smaller means at most half. -/
theorem pow2_le_half {a N : Nat} (ha : a = 2 ^ Nat.log2 a)
    (hN : N = 2 ^ Nat.log2 N) (h : a < N) : a ≤ N >>> 1 := by
  have h2 : 2 ≤ N := by
    have := pow2_pos ha
    omega
  obtain ⟨hh, he⟩ := pow2_half hN h2
  have hk : 1 ≤ Nat.log2 N := by
    by_contra hk
    have h0 : Nat.log2 N = 0 := by omega
    rw [h0, pow_zero] at hN
    omega
  have hlog : Nat.log2 a < Nat.log2 N := by
    by_contra hc
    push_neg at hc
    have := Nat.pow_le_pow_right (by norm_num : 0 < 2) hc
    omega
  have hle : a ≤ 2 ^ (Nat.log2 N - 1) := by
    conv_lhs => rw [ha]
    exact Nat.pow_le_pow_right (by norm_num) (by omega)
  have hyy : N = 2 ^ (Nat.log2 N - 1) * 2 := by
    conv_lhs => rw [hN]
    rw [← pow_succ]
    congr 1
    omega
  omega

/-- The global chain invariant implies the local adjacent-pair form. -/
theorem pairOK_of_chainOK {B : List Bucket} {N : Nat} (hN : 0 < N)
    (hpos : pslPos B N) (hchain : chainOK B N) {i : Nat} (hi : i < N) :
    pairOK B N i := by
  intro hocc hpsl
  have hjN : (i + 1) % N < N := Nat.mod_lt _ hN
  obtain ⟨hpslN, hposj⟩ := hpos ((i + 1) % N) hjN hocc
  obtain ⟨hocc2, hps2⟩ := hchain ((i + 1) % N) hjN hocc
    ((bucketAt B ((i + 1) % N)).psl - 1) (by omega)
  have hs : ((bucketAt B ((i + 1) % N)).hash % N +
      ((bucketAt B ((i + 1) % N)).psl - 1)) % N = i := by
    have h1 := Nat.mod_add_mod ((bucketAt B ((i + 1) % N)).hash % N +
      ((bucketAt B ((i + 1) % N)).psl - 1)) N 1
    have h2 : (bucketAt B ((i + 1) % N)).hash % N +
        ((bucketAt B ((i + 1) % N)).psl - 1) + 1 =
        (bucketAt B ((i + 1) % N)).hash % N +
        (bucketAt B ((i + 1) % N)).psl := by omega
    rw [h2, hposj] at h1
    have hsN : ((bucketAt B ((i + 1) % N)).hash % N +
        ((bucketAt B ((i + 1) % N)).psl - 1)) % N < N := Nat.mod_lt _ hN
    have h3 : (1 + ((bucketAt B ((i + 1) % N)).hash % N +
        ((bucketAt B ((i + 1) % N)).psl - 1)) % N) % N = (1 + i) % N := by
      rw [Nat.add_comm 1, h1, Nat.add_comm 1]
    exact mod_cancel_left hsN hi h3
  rw [hs] at hocc2 hps2
  exact ⟨hocc2, by omega⟩

/-- The local adjacent-pair form plus PSL/position consistency implies the
global chain invariant. -/
theorem chainOK_of_pairOK {B : List Bucket} {N : Nat} (hN : 0 < N)
    (hpos : pslPos B N) (hlocal : ∀ i, i < N → pairOK B N i) :
    chainOK B N := by
  intro i hi hocc d hd
  obtain ⟨hpslN, hposi⟩ := hpos i hi hocc
  have aux : ∀ t, t ≤ (bucketAt B i).psl →
      (bucketAt B (((bucketAt B i).hash % N +
        ((bucketAt B i).psl - t)) % N)).key ≠ [] ∧
      (bucketAt B i).psl - t ≤
        (bucketAt B (((bucketAt B i).hash % N +
          ((bucketAt B i).psl - t)) % N)).psl := by
    intro t
    induction t with
    | zero =>
      intro _
      rw [Nat.sub_zero, hposi]
      exact ⟨hocc, Nat.le_refl _⟩
    | succ t ih =>
      intro ht
      obtain ⟨ho, hp1⟩ := ih (by omega)
      have hstep : (((bucketAt B i).hash % N +
          ((bucketAt B i).psl - (t + 1))) % N + 1) % N =
          ((bucketAt B i).hash % N + ((bucketAt B i).psl - t)) % N := by
        rw [Nat.mod_add_mod]
        congr 1
        omega
      rw [← hstep] at ho hp1
      obtain ⟨ho2, hp2⟩ := hlocal (((bucketAt B i).hash % N +
        ((bucketAt B i).psl - (t + 1))) % N) (Nat.mod_lt _ hN) ho (by omega)
      exact ⟨ho2, by omega⟩
  obtain ⟨h1, h2⟩ := aux ((bucketAt B i).psl - d) (by omega)
  have heq : (bucketAt B i).psl - ((bucketAt B i).psl - d) = d := by omega
  rw [heq] at h1 h2
  exact ⟨h1, h2⟩

/-!
Preservation of the per-slot invariants under a single slot write.
-/

theorem pslPos_set' {N : Nat} {B : List Bucket} (hlen : B.length = N)
    (hpos : pslPos B N) {idx : Nat} {e : Bucket}
    (he : e.key = [] ∨ (e.psl < N ∧ (e.hash % N + e.psl) % N = idx)) :
    pslPos (B.set idx e) N := by
  intro j hj hocc
  by_cases hji : j = idx
  · subst hji
    rw [bucketAt_set_self (hlen ▸ hj)] at hocc ⊢
    rcases he with h | ⟨h1, h2⟩
    · exact absurd h hocc
    · exact ⟨h1, h2⟩
  · rw [bucketAt_set_ne (Ne.symm hji)] at hocc ⊢
    exact hpos j hj hocc

theorem hashCached_set' {N : Nat} {B : List Bucket}
    {hf : List Nat → Nat → Nat} {seed : Nat} (hlen : B.length = N)
    (hhash : hashCached B N hf seed) {idx : Nat} {e : Bucket}
    (he : e.key = [] ∨ e.hash = hf e.key seed) :
    hashCached (B.set idx e) N hf seed := by
  intro j hj hocc
  by_cases hji : j = idx
  · subst hji
    rw [bucketAt_set_self (hlen ▸ hj)] at hocc ⊢
    rcases he with h | h
    · exact absurd h hocc
    · exact h
  · rw [bucketAt_set_ne (Ne.symm hji)] at hocc ⊢
    exact hhash j hj hocc

theorem uniqKeys_set_fresh {N : Nat} {B : List Bucket} (hlen : B.length = N)
    (huniq : uniqKeys B N) {idx : Nat} {e : Bucket}
    (hfresh : ∀ i, i < N → (bucketAt B i).key ≠ e.key) :
    uniqKeys (B.set idx e) N := by
  intro i hi j hj hij hocci hoccj
  by_cases hii : i = idx <;> by_cases hjj : j = idx
  · exact absurd (hii.trans hjj.symm) hij
  · subst hii
    rw [bucketAt_set_self (hlen ▸ hi)] at hocci ⊢
    rw [bucketAt_set_ne (Ne.symm hjj)] at hoccj ⊢
    exact fun h => (hfresh j hj) (h.symm)
  · subst hjj
    rw [bucketAt_set_ne (Ne.symm hii)] at hocci ⊢
    rw [bucketAt_set_self (hlen ▸ hj)] at hoccj ⊢
    exact hfresh i hi
  · rw [bucketAt_set_ne (Ne.symm hii)] at hocci ⊢
    rw [bucketAt_set_ne (Ne.symm hjj)] at hoccj ⊢
    exact huniq i hi j hj hij hocci hoccj

theorem uniqKeys_set_empty {N : Nat} {B : List Bucket} (hlen : B.length = N)
    (huniq : uniqKeys B N) {idx : Nat} :
    uniqKeys (B.set idx emptyBucket) N := by
  intro i hi j hj hij hocci hoccj
  by_cases hii : i = idx
  · subst hii
    rw [bucketAt_set_self (hlen ▸ hi)] at hocci
    exact absurd rfl hocci
  · by_cases hjj : j = idx
    · subst hjj
      rw [bucketAt_set_self (hlen ▸ hj)] at hoccj
      exact absurd rfl hoccj
    · rw [bucketAt_set_ne (Ne.symm hii)] at hocci ⊢
      rw [bucketAt_set_ne (Ne.symm hjj)] at hoccj ⊢
      exact huniq i hi j hj hij hocci hoccj

/-- Placing the carried entry `e` at its probe position `idx` preserves the
chain invariant, provided `e`'s own chain condition holds and the displaced
slot was empty or not richer than `e`. -/
theorem chainOK_set_carried {N : Nat} (hN : 0 < N) {B : List Bucket}
    (hlen : B.length = N) (hchain : chainOK B N) {e : Bucket}
    (hek : e.key ≠ []) (hepsl : e.psl < N) {idx : Nat}
    (hidx : (e.hash % N + e.psl) % N = idx)
    (hechain : ∀ d, d < e.psl →
      (bucketAt B ((e.hash % N + d) % N)).key ≠ [] ∧
      d ≤ (bucketAt B ((e.hash % N + d) % N)).psl)
    (hmono : (bucketAt B idx).key = [] ∨ (bucketAt B idx).psl ≤ e.psl) :
    chainOK (B.set idx e) N := by
  have hiN : idx < N := hidx ▸ Nat.mod_lt _ hN
  intro j hj hocc d hd
  by_cases hji : j = idx
  · subst hji
    rw [bucketAt_set_self (hlen ▸ hj)] at hocc hd ⊢
    have hs : (e.hash % N + d) % N ≠ (e.hash % N + e.psl) % N := by
      intro hc
      have hdn : d < N := by omega
      exact absurd (mod_cancel_left hdn hepsl hc) (by omega)
    rw [hidx] at hs
    rw [bucketAt_set_ne (Ne.symm hs)]
    exact hechain d hd
  · rw [bucketAt_set_ne (Ne.symm hji)] at hocc hd ⊢
    obtain ⟨ho, hp⟩ := hchain j hj hocc d hd
    by_cases hsi : ((bucketAt B j).hash % N + d) % N = idx
    · rw [hsi] at ho hp
      rw [hsi, bucketAt_set_self (hlen ▸ hiN)]
      rcases hmono with h | h
      · exact absurd h ho
      · exact ⟨hek, by omega⟩
    · rw [bucketAt_set_ne (Ne.symm hsi)]
      exact ⟨ho, hp⟩

theorem hasKeyVal_swap_bridge {B : List Bucket} {idx : Nat}
    (hix : idx < B.length) (e : Bucket) (kk : List Nat) (vv : Nat) :
    (hasKeyVal (B.set idx e) kk vv ∨
        (kk = (bucketAt B idx).key ∧ vv = (bucketAt B idx).val)) ↔
      (hasKeyVal B kk vv ∨ (kk = e.key ∧ vv = e.val)) := by
  constructor
  · rintro (⟨i, hi, hk, hv⟩ | ⟨hk, hv⟩)
    · by_cases hii : i = idx
      · subst hii
        rw [bucketAt_set_self hix] at hk hv
        exact Or.inr ⟨hk.symm, hv.symm⟩
      · refine Or.inl ⟨i, by simpa using hi, ?_, ?_⟩
        · rwa [bucketAt_set_ne (Ne.symm hii)] at hk
        · rwa [bucketAt_set_ne (Ne.symm hii)] at hv
    · exact Or.inl ⟨idx, hix, hk.symm, hv.symm⟩
  · rintro (⟨i, hi, hk, hv⟩ | ⟨hk, hv⟩)
    · by_cases hii : i = idx
      · subst hii
        exact Or.inr ⟨hk.symm, hv.symm⟩
      · refine Or.inl ⟨i, by simpa using hi, ?_, ?_⟩
        · rwa [bucketAt_set_ne (Ne.symm hii)]
        · rwa [bucketAt_set_ne (Ne.symm hii)]
    · refine Or.inl ⟨idx, by simpa using hix, ?_, ?_⟩
      · rw [bucketAt_set_self hix]; exact hk.symm
      · rw [bucketAt_set_self hix]; exact hv.symm

theorem hasKeyVal_insert_bridge {B : List Bucket} {idx : Nat}
    (hix : idx < B.length) {e : Bucket}
    (hemp : (bucketAt B idx).key = []) (kk : List Nat) (vv : Nat)
    (hkk : kk ≠ []) :
    hasKeyVal (B.set idx e) kk vv ↔
      (hasKeyVal B kk vv ∨ (kk = e.key ∧ vv = e.val)) := by
  have hb := hasKeyVal_swap_bridge hix e kk vv
  rw [hemp] at hb
  constructor
  · intro h
    exact hb.mp (Or.inl h)
  · intro h
    rcases hb.mpr h with h1 | ⟨h2, _⟩
    · exact h1
    · exact absurd h2 hkk

/-- One-step unfolding of the `robin_table_put0` probe loop. -/
theorem put0_loop_succ (mask : Nat) (B : List Bucket) (e : Bucket)
    (v0 idx fuel : Nat) :
    robin_table_put0_loop mask B e v0 idx (fuel + 1) =
      if (bucketAt B idx).key = [] then some (B.set idx e, true, v0)
      else if (bucketAt B idx).hash = e.hash ∧
          (bucketAt B idx).key.length = e.key.length ∧
          (bucketAt B idx).key = e.key then
        some (B, false, (bucketAt B idx).val)
      else if (bucketAt B idx).psl < e.psl then
        robin_table_put0_loop mask (B.set idx e)
          { bucketAt B idx with psl := (bucketAt B idx).psl + 1 } v0
          ((idx + 1) &&& mask) fuel
      else
        robin_table_put0_loop mask B { e with psl := e.psl + 1 } v0
          ((idx + 1) &&& mask) fuel := rfl

/-- The probe loop of `robin_table_put0`, carrying a key not present in the
table, inserts it: given an empty slot at forward distance `d0` and enough
fuel, the loop succeeds, preserves all bucket invariants, increments the
occupancy, and adds exactly the carried binding to the table contents. -/
theorem put0_loop_insert {N : Nat} (hpow : N = 2 ^ Nat.log2 N)
    {hf : List Nat → Nat → Nat} {seed : Nat} :
    ∀ (fuel : Nat) (B : List Bucket) (e : Bucket) (idx d0 v0 : Nat),
      B.length = N →
      pslPos B N → chainOK B N → uniqKeys B N → hashCached B N hf seed →
      e.key ≠ [] → e.hash = hf e.key seed →
      idx = (e.hash % N + e.psl) % N →
      (∀ d, d < e.psl → (bucketAt B ((e.hash % N + d) % N)).key ≠ [] ∧
        d ≤ (bucketAt B ((e.hash % N + d) % N)).psl) →
      (∀ i, i < N → (bucketAt B i).key ≠ e.key) →
      (bucketAt B ((idx + d0) % N)).key = [] →
      d0 < fuel → d0 + e.psl < N →
      ∃ B2, robin_table_put0_loop (N - 1) B e v0 idx fuel =
          some (B2, true, v0) ∧
        B2.length = N ∧ pslPos B2 N ∧ chainOK B2 N ∧ uniqKeys B2 N ∧
        hashCached B2 N hf seed ∧ countOcc B2 = countOcc B + 1 ∧
        (∀ kk vv, kk ≠ [] → (hasKeyVal B2 kk vv ↔
          (hasKeyVal B kk vv ∨ (kk = e.key ∧ vv = e.val)))) := by
  intro fuel
  induction fuel with
  | zero =>
    intro B e idx d0 v0 _ _ _ _ _ _ _ _ _ _ _ hfuel _
    omega
  | succ fuel ih =>
    intro B e idx d0 v0 hlen hpos hchain huniq hhash hek heh hidx hechain
      hfresh hd0 hfuel hsum
    have hN : 0 < N := pow2_pos hpow
    have hepsl : e.psl < N := by omega
    have hiN : idx < N := by rw [hidx]; exact Nat.mod_lt _ hN
    have hmask : ∀ x : Nat, x &&& (N - 1) = x % N := land_mask hpow
    rw [put0_loop_succ]
    by_cases hkey : (bucketAt B idx).key = []
    · rw [if_pos hkey]
      refine ⟨B.set idx e, rfl, by simpa using hlen, ?_, ?_, ?_, ?_, ?_, ?_⟩
      · exact pslPos_set' hlen hpos (Or.inr ⟨hepsl, hidx.symm⟩)
      · exact chainOK_set_carried hN hlen hchain hek hepsl hidx.symm hechain
          (Or.inl hkey)
      · exact uniqKeys_set_fresh hlen huniq hfresh
      · exact hashCached_set' hlen hhash (Or.inr heh)
      · exact countOcc_set_insert (hlen ▸ hiN) hkey hek
      · intro kk vv hkk
        exact hasKeyVal_insert_bridge (hlen ▸ hiN) hkey kk vv hkk
    · rw [if_neg hkey]
      have hnomatch : ¬((bucketAt B idx).hash = e.hash ∧
          (bucketAt B idx).key.length = e.key.length ∧
          (bucketAt B idx).key = e.key) := by
        rintro ⟨_, _, hc⟩
        exact hfresh idx hiN hc
      rw [if_neg hnomatch]
      have hd0pos : 1 ≤ d0 := by
        by_contra hc
        have hz : d0 = 0 := by omega
        rw [hz, Nat.add_zero, Nat.mod_eq_of_lt hiN] at hd0
        exact hkey hd0
      have hd0N : d0 < N := by omega
      have hshift : (((idx + 1) % N) + (d0 - 1)) % N = (idx + d0) % N := by
        rw [Nat.mod_add_mod]
        congr 1
        omega
      have hslot_ne : (idx + d0) % N ≠ idx := by
        intro hc
        have h0 : (idx + d0) % N = (idx + 0) % N := by
          rw [hc, Nat.add_zero, Nat.mod_eq_of_lt hiN]
        exact absurd (mod_cancel_left hd0N hN h0) (by omega)
      by_cases hrich : (bucketAt B idx).psl < e.psl
      · rw [if_pos hrich]
        have hoccold : (bucketAt B idx).key ≠ [] := hkey
        obtain ⟨holdpsl, holdpos⟩ := hpos idx hiN hoccold
        have hlen2 : (B.set idx e).length = N := by simpa using hlen
        have hpos2 : pslPos (B.set idx e) N :=
          pslPos_set' hlen hpos (Or.inr ⟨hepsl, hidx.symm⟩)
        have hchain2 : chainOK (B.set idx e) N :=
          chainOK_set_carried hN hlen hchain hek hepsl hidx.symm hechain
            (Or.inr (by omega))
        have huniq2 : uniqKeys (B.set idx e) N :=
          uniqKeys_set_fresh hlen huniq hfresh
        have hhash2 : hashCached (B.set idx e) N hf seed :=
          hashCached_set' hlen hhash (Or.inr heh)
        have hold_hash : (bucketAt B idx).hash = hf (bucketAt B idx).key seed :=
          hhash idx hiN hoccold
        have hidx2 : (idx + 1) &&& (N - 1) =
            ((bucketAt B idx).hash % N + ((bucketAt B idx).psl + 1)) % N := by
          rw [hmask, ← Nat.add_assoc]
          have h5 := Nat.mod_add_mod ((bucketAt B idx).hash % N +
            (bucketAt B idx).psl) N 1
          rw [holdpos] at h5
          exact h5
        have hechain2 : ∀ d, d < (bucketAt B idx).psl + 1 →
            (bucketAt (B.set idx e) (((bucketAt B idx).hash % N + d) % N)).key
              ≠ [] ∧
            d ≤ (bucketAt (B.set idx e)
              (((bucketAt B idx).hash % N + d) % N)).psl := by
          intro d hd
          by_cases hde : d = (bucketAt B idx).psl
          · subst hde
            rw [holdpos, bucketAt_set_self (hlen ▸ hiN)]
            exact ⟨hek, by omega⟩
          · have hdlt : d < (bucketAt B idx).psl := by omega
            obtain ⟨ho, hp⟩ := hchain idx hiN hoccold d hdlt
            have hne : ((bucketAt B idx).hash % N + d) % N ≠ idx := by
              intro hc
              exact hde (mod_cancel_left (by omega) holdpsl
                (hc.trans holdpos.symm))
            rw [bucketAt_set_ne (Ne.symm hne)]
            exact ⟨ho, hp⟩
        have hfresh2 : ∀ i, i < N →
            (bucketAt (B.set idx e) i).key ≠ (bucketAt B idx).key := by
          intro i hi
          by_cases hii : i = idx
          · rw [hii, bucketAt_set_self (hlen ▸ hiN)]
            exact fun h => hfresh idx hiN h.symm
          · rw [bucketAt_set_ne (Ne.symm hii)]
            by_cases hocc : (bucketAt B i).key = []
            · rw [hocc]
              exact fun h => hoccold h.symm
            · exact huniq i hi idx hiN hii hocc hoccold
        have hd0x : (bucketAt (B.set idx e)
            ((((idx + 1) &&& (N - 1)) + (d0 - 1)) % N)).key = [] := by
          rw [hmask, hshift, bucketAt_set_ne (Ne.symm hslot_ne)]
          exact hd0
        obtain ⟨B2, hrun, hl2, hp2, hc2, hu2, hh2, hcnt2, hmap2⟩ :=
          ih (B.set idx e) { bucketAt B idx with psl := (bucketAt B idx).psl + 1 }
            ((idx + 1) &&& (N - 1)) (d0 - 1) v0 hlen2 hpos2 hchain2 huniq2
            hhash2 hoccold hold_hash hidx2 hechain2 hfresh2 hd0x (by omega)
            (by
              show d0 - 1 + ((bucketAt B idx).psl + 1) < N
              omega)
        refine ⟨B2, hrun, hl2, hp2, hc2, hu2, hh2, ?_, ?_⟩
        · rw [hcnt2, countOcc_set_occ (hlen ▸ hiN) hoccold hek]
        · intro kk vv hkk
          rw [hmap2 kk vv hkk]
          exact hasKeyVal_swap_bridge (hlen ▸ hiN) _ kk vv
      · rw [if_neg hrich]
        have hidx2 : (idx + 1) &&& (N - 1) =
            (e.hash % N + (e.psl + 1)) % N := by
          rw [hmask, ← Nat.add_assoc]
          have h5 := Nat.mod_add_mod (e.hash % N + e.psl) N 1
          rw [← hidx] at h5
          exact h5
        have hechain2 : ∀ d, d < e.psl + 1 →
            (bucketAt B ((e.hash % N + d) % N)).key ≠ [] ∧
            d ≤ (bucketAt B ((e.hash % N + d) % N)).psl := by
          intro d hd
          by_cases hde : d = e.psl
          · subst hde
            rw [← hidx]
            exact ⟨hkey, Nat.le_of_not_lt hrich⟩
          · exact hechain d (by omega)
        have hd0x : (bucketAt B
            ((((idx + 1) &&& (N - 1)) + (d0 - 1)) % N)).key = [] := by
          rw [hmask, hshift]
          exact hd0
        obtain ⟨B2, hrun, hl2, hp2, hc2, hu2, hh2, hcnt2, hmap2⟩ :=
          ih B { e with psl := e.psl + 1 } ((idx + 1) &&& (N - 1)) (d0 - 1) v0
            hlen hpos hchain huniq hhash hek heh hidx2 hechain2 hfresh hd0x
            (by omega) (by
              show d0 - 1 + (e.psl + 1) < N
              omega)
        exact ⟨B2, hrun, hl2, hp2, hc2, hu2, hh2, hcnt2, hmap2⟩

/-- The probe loop of `robin_table_put0`, carrying a key already stored in
slot `j`, walks to `j` without modifying anything and returns the stored
value (first writer wins). -/
theorem put0_loop_found {N : Nat} (hpow : N = 2 ^ Nat.log2 N)
    {hf : List Nat → Nat → Nat} {seed : Nat} {B : List Bucket}
    (hlen : B.length = N) (hpos : pslPos B N) (hchain : chainOK B N)
    (huniq : uniqKeys B N) (hhash : hashCached B N hf seed)
    {j : Nat} (hj : j < N) (hoccj : (bucketAt B j).key ≠ []) :
    ∀ (fuel : Nat) (e : Bucket) (idx v0 : Nat),
      e.key = (bucketAt B j).key → e.hash = hf e.key seed →
      e.psl ≤ (bucketAt B j).psl →
      idx = (e.hash % N + e.psl) % N →
      (bucketAt B j).psl - e.psl < fuel →
      robin_table_put0_loop (N - 1) B e v0 idx fuel =
        some (B, false, (bucketAt B j).val) := by
  have hN : 0 < N := pow2_pos hpow
  have hmask : ∀ x : Nat, x &&& (N - 1) = x % N := land_mask hpow
  obtain ⟨hpN, hpI⟩ := hpos j hj hoccj
  intro fuel
  induction fuel with
  | zero =>
    intro e idx v0 _ _ hle _ hfuel
    omega
  | succ fuel ih =>
    intro e idx v0 hkeq hehash hle hidx hfuel
    have hhj : e.hash = (bucketAt B j).hash := by
      rw [hehash, hkeq]
      exact (hhash j hj hoccj).symm
    rw [put0_loop_succ]
    by_cases hdp : e.psl = (bucketAt B j).psl
    · have hij : idx = j := by
        rw [hidx, hhj, hdp]
        exact hpI
      subst hij
      rw [if_neg (by rw [← hkeq] at hoccj ⊢; exact hoccj)]
      rw [if_pos ⟨hhj.symm, by rw [hkeq], hkeq.symm⟩]
    · have hdlt : e.psl < (bucketAt B j).psl := by omega
      obtain ⟨hso, hsp⟩ := hchain j hj hoccj e.psl hdlt
      have hsidx : ((bucketAt B j).hash % N + e.psl) % N = idx := by
        rw [hidx, hhj]
      rw [hsidx] at hso hsp
      have hsj : idx ≠ j := by
        intro hc
        have hcc : ((bucketAt B j).hash % N + e.psl) % N =
            ((bucketAt B j).hash % N + (bucketAt B j).psl) % N :=
          hsidx.trans (hc.trans hpI.symm)
        exact absurd (mod_cancel_left (by omega) hpN hcc) (by omega)
      rw [if_neg hso]
      have hnomatch : ¬((bucketAt B idx).hash = e.hash ∧
          (bucketAt B idx).key.length = e.key.length ∧
          (bucketAt B idx).key = e.key) := by
        rintro ⟨_, _, hk⟩
        rw [hkeq] at hk
        exact huniq idx (hidx ▸ Nat.mod_lt _ hN) j hj hsj hso hoccj hk
      rw [if_neg hnomatch]
      rw [if_neg (by omega)]
      have hidx2 : (idx + 1) &&& (N - 1) = (e.hash % N + (e.psl + 1)) % N := by
        rw [hmask, ← Nat.add_assoc]
        have h5 := Nat.mod_add_mod (e.hash % N + e.psl) N 1
        rw [← hidx] at h5
        exact h5
      exact ih { e with psl := e.psl + 1 } ((idx + 1) &&& (N - 1)) v0 hkeq
        hehash (by show e.psl + 1 ≤ (bucketAt B j).psl; omega) hidx2
        (by show (bucketAt B j).psl - (e.psl + 1) < fuel; omega)

/-- One-step unfolding of the `robin_table_get_bucket` probe loop. -/
theorem get_loop_succ (rt : RobinTable) (key : List Nat)
    (hash idx psl fuel : Nat) :
    robin_table_get_bucket_loop rt key hash idx psl (fuel + 1) =
      if (bucketAt rt.buckets idx).hash = hash ∧
          (bucketAt rt.buckets idx).key.length = key.length ∧
          (bucketAt rt.buckets idx).key = key then some (some idx)
      else if (bucketAt rt.buckets idx).key = [] ∨
          (bucketAt rt.buckets idx).psl < psl then some none
      else robin_table_get_bucket_loop rt key hash ((idx + 1) &&& rt.mask)
        (psl + 1) fuel := rfl

/-- The lookup probe loop finds the slot holding the searched key. -/
theorem get_loop_found {N : Nat} (hpow : N = 2 ^ Nat.log2 N) {rt : RobinTable}
    (hmask : rt.mask = N - 1) (hlen : rt.buckets.length = N)
    (hpos : pslPos rt.buckets N) (hchain : chainOK rt.buckets N)
    (huniq : uniqKeys rt.buckets N)
    (hhash : hashCached rt.buckets N rt.hash_func rt.seed)
    {j : Nat} (hj : j < N) (hoccj : (bucketAt rt.buckets j).key ≠ []) :
    ∀ (fuel psl idx : Nat),
      psl ≤ (bucketAt rt.buckets j).psl →
      idx = ((bucketAt rt.buckets j).hash % N + psl) % N →
      (bucketAt rt.buckets j).psl - psl < fuel →
      robin_table_get_bucket_loop rt (bucketAt rt.buckets j).key
        (rt.hash_func (bucketAt rt.buckets j).key rt.seed) idx psl fuel =
        some (some j) := by
  have hN : 0 < N := pow2_pos hpow
  have hlm : ∀ x : Nat, x &&& rt.mask = x % N := by
    intro x
    rw [hmask]
    exact land_mask hpow x
  obtain ⟨hpN, hpI⟩ := hpos j hj hoccj
  have hhj : rt.hash_func (bucketAt rt.buckets j).key rt.seed =
      (bucketAt rt.buckets j).hash := (hhash j hj hoccj).symm
  intro fuel
  induction fuel with
  | zero =>
    intro psl idx hle _ hfuel
    omega
  | succ fuel ih =>
    intro psl idx hle hidx hfuel
    rw [get_loop_succ]
    by_cases hdp : psl = (bucketAt rt.buckets j).psl
    · have hij : idx = j := by
        rw [hidx, hdp]
        exact hpI
      subst hij
      rw [if_pos ⟨hhj.symm, rfl, rfl⟩]
    · have hdlt : psl < (bucketAt rt.buckets j).psl := by omega
      obtain ⟨hso, hsp⟩ := hchain j hj hoccj psl hdlt
      rw [hidx.symm] at hso hsp
      have hsj : idx ≠ j := by
        intro hc
        have hcc : ((bucketAt rt.buckets j).hash % N + psl) % N =
            ((bucketAt rt.buckets j).hash % N + (bucketAt rt.buckets j).psl)
              % N := hidx.symm.trans (hc.trans hpI.symm)
        exact absurd (mod_cancel_left (by omega) hpN hcc) (by omega)
      have hnomatch : ¬((bucketAt rt.buckets idx).hash =
          rt.hash_func (bucketAt rt.buckets j).key rt.seed ∧
          (bucketAt rt.buckets idx).key.length =
            (bucketAt rt.buckets j).key.length ∧
          (bucketAt rt.buckets idx).key = (bucketAt rt.buckets j).key) := by
        rintro ⟨_, _, hk⟩
        exact huniq idx (hidx ▸ Nat.mod_lt _ hN) j hj hsj hso hoccj hk
      rw [if_neg hnomatch]
      rw [if_neg (by
        rintro (hc | hc)
        · exact hso hc
        · omega)]
      have hidx2 : (idx + 1) &&& rt.mask =
          ((bucketAt rt.buckets j).hash % N + (psl + 1)) % N := by
        rw [hlm, ← Nat.add_assoc]
        have h5 := Nat.mod_add_mod ((bucketAt rt.buckets j).hash % N + psl) N 1
        rw [← hidx] at h5
        exact h5
      exact ih (psl + 1) ((idx + 1) &&& rt.mask) (by omega) hidx2 (by omega)

/-- The lookup probe loop reports the searched key absent when no slot holds
it, stopping at an empty or rich bucket (an empty slot exists at forward
distance `d0`). -/
theorem get_loop_absent {N : Nat} (hpow : N = 2 ^ Nat.log2 N)
    {rt : RobinTable} (hmask : rt.mask = N - 1) (hlen : rt.buckets.length = N)
    {kk : List Nat} (hkk : kk ≠ [])
    (habsent : ∀ i, i < N → (bucketAt rt.buckets i).key ≠ kk) (hash : Nat) :
    ∀ (fuel d0 psl idx : Nat),
      idx < N →
      (bucketAt rt.buckets ((idx + d0) % N)).key = [] →
      d0 < fuel →
      robin_table_get_bucket_loop rt kk hash idx psl fuel = some none := by
  have hN : 0 < N := pow2_pos hpow
  have hlm : ∀ x : Nat, x &&& rt.mask = x % N := by
    intro x
    rw [hmask]
    exact land_mask hpow x
  intro fuel
  induction fuel with
  | zero =>
    intro d0 psl idx _ _ hfuel
    omega
  | succ fuel ih =>
    intro d0 psl idx hiN hd0 hfuel
    rw [get_loop_succ]
    have hnomatch : ¬((bucketAt rt.buckets idx).hash = hash ∧
        (bucketAt rt.buckets idx).key.length = kk.length ∧
        (bucketAt rt.buckets idx).key = kk) := by
      rintro ⟨_, _, hk⟩
      exact habsent idx hiN hk
    rw [if_neg hnomatch]
    by_cases hstop : (bucketAt rt.buckets idx).key = [] ∨
        (bucketAt rt.buckets idx).psl < psl
    · rw [if_pos hstop]
    · rw [if_neg hstop]
      push_neg at hstop
      obtain ⟨hocc, _⟩ := hstop
      have hd0pos : 1 ≤ d0 := by
        by_contra hc
        have hz : d0 = 0 := by omega
        rw [hz, Nat.add_zero, Nat.mod_eq_of_lt hiN] at hd0
        exact hocc hd0
      have hd0x : (bucketAt rt.buckets
          ((((idx + 1) &&& rt.mask) + (d0 - 1)) % N)).key = [] := by
        rw [hlm, Nat.mod_add_mod]
        have hc : idx + 1 + (d0 - 1) = idx + d0 := by omega
        rw [hc]
        exact hd0
      exact ih (d0 - 1) (psl + 1) ((idx + 1) &&& rt.mask)
        (by rw [hlm]; exact Nat.mod_lt _ hN) hd0x (by omega)

/-- Unfolding equation for `robin_table_put0`. -/
theorem put0_eq (rt : RobinTable) (key : List Nat) (v : Nat) :
    robin_table_put0 rt key v =
      match robin_table_put0_loop rt.mask rt.buckets
          ⟨key, v, 0, rt.hash_func key rt.seed⟩ v
          ((rt.hash_func key rt.seed) &&& rt.mask) (rt.bucket_count + 1) with
      | none => none
      | some (b, inserted, r) =>
        some ({ rt with
                  buckets := b
                  count := if inserted then rt.count + 1 else rt.count }, r)
    := rfl

/-- Unfolding equation for `robin_table_get_bucket`. -/
theorem get_bucket_eq (rt : RobinTable) (key : List Nat) :
    robin_table_get_bucket rt key =
      robin_table_get_bucket_loop rt key (rt.hash_func key rt.seed)
        ((rt.hash_func key rt.seed) &&& rt.mask) 0 (rt.bucket_count + 1)
    := rfl

/-- `robin_table_put0` on a key not in the table (with a free slot to spare)
inserts it, returns the supplied value, preserves well-formedness and adds
exactly that binding. -/
theorem robin_table_put0_fresh {rt : RobinTable} (h : WFb rt)
    (hroom : rt.count + 1 < rt.bucket_count) {key : List Nat} (hkey : key ≠ [])
    (hfresh : ∀ i, i < rt.bucket_count → (bucketAt rt.buckets i).key ≠ key)
    (v : Nat) :
    ∃ rt2, robin_table_put0 rt key v = some (rt2, v) ∧ WFb rt2 ∧
      rt2.count = rt.count + 1 ∧ rt2.bucket_count = rt.bucket_count ∧
      rt2.init_buckets = rt.init_buckets ∧ rt2.mask = rt.mask ∧
      rt2.expand_at = rt.expand_at ∧ rt2.shrink_at = rt.shrink_at ∧
      rt2.seed = rt.seed ∧ rt2.hash_func = rt.hash_func ∧
      (∀ kk vv, kk ≠ [] → (hasKeyVal rt2.buckets kk vv ↔
        (hasKeyVal rt.buckets kk vv ∨ (kk = key ∧ vv = v)))) := by
  obtain ⟨hlen, hpow, hmask, hcount, hlt, hpos, hchain, huniq, hhash⟩ := h
  have hN : 0 < rt.bucket_count := pow2_pos hpow
  obtain ⟨jj, hjj, hemp⟩ := exists_empty_slot hlen (by omega)
  have hidx0 : (rt.hash_func key rt.seed) &&& rt.mask =
      ((rt.hash_func key rt.seed) % rt.bucket_count + 0) % rt.bucket_count := by
    rw [hmask, land_mask hpow, Nat.add_zero]
    exact (Nat.mod_mod_of_dvd _ dvd_rfl).symm
  have hidxN : (rt.hash_func key rt.seed) &&& rt.mask < rt.bucket_count := by
    rw [hmask, land_mask hpow]
    exact Nat.mod_lt _ hN
  obtain ⟨d0, hd0N, hd0e⟩ := exists_dist hN (Nat.le_of_lt hidxN) hjj
  have hd0 : (bucketAt rt.buckets
      ((((rt.hash_func key rt.seed) &&& rt.mask) + d0) % rt.bucket_count)).key
      = [] := by
    rw [hd0e]
    exact hemp
  obtain ⟨B2, hrun, hl2, hp2, hc2, hu2, hh2, hcnt2, hmap2⟩ :=
    put0_loop_insert hpow (rt.bucket_count + 1) rt.buckets
      ⟨key, v, 0, rt.hash_func key rt.seed⟩
      ((rt.hash_func key rt.seed) &&& rt.mask) d0 v hlen hpos hchain huniq
      hhash hkey rfl hidx0 (by intro d hd; simp at hd) hfresh hd0 (by omega)
      (by show d0 + 0 < rt.bucket_count; omega)
  have hrun2 : robin_table_put0_loop rt.mask rt.buckets
      ⟨key, v, 0, rt.hash_func key rt.seed⟩ v
      ((rt.hash_func key rt.seed) &&& rt.mask) (rt.bucket_count + 1) =
      some (B2, true, v) := by
    simpa only [hmask] using hrun
  refine ⟨{ rt with buckets := B2, count := rt.count + 1 }, ?_, ?_, rfl, rfl,
    rfl, rfl, rfl, rfl, rfl, rfl, ?_⟩
  · rw [put0_eq, hrun2]
    rfl
  · exact ⟨hl2, hpow, hmask, by show rt.count + 1 = countOcc B2; rw [hcnt2,
      ← hcount], hroom, hp2, hc2, hu2, hh2⟩
  · exact hmap2

/-- `robin_table_put0` on a key already stored in slot `j` returns the
stored value and leaves the table unchanged (first writer wins). -/
theorem robin_table_put0_dup {rt : RobinTable} (h : WFb rt) {key : List Nat}
    {j : Nat} (hj : j < rt.bucket_count)
    (hjkey : (bucketAt rt.buckets j).key = key) (hjocc : key ≠ []) (v : Nat) :
    robin_table_put0 rt key v = some (rt, (bucketAt rt.buckets j).val) := by
  obtain ⟨hlen, hpow, hmask, hcount, hlt, hpos, hchain, huniq, hhash⟩ := h
  have hN : 0 < rt.bucket_count := pow2_pos hpow
  have hoccj : (bucketAt rt.buckets j).key ≠ [] := by rw [hjkey]; exact hjocc
  obtain ⟨hpN, hpI⟩ := hpos j hj hoccj
  have hidx0 : (rt.hash_func key rt.seed) &&& rt.mask =
      ((rt.hash_func key rt.seed) % rt.bucket_count + 0) % rt.bucket_count := by
    rw [hmask, land_mask hpow, Nat.add_zero]
    exact (Nat.mod_mod_of_dvd _ dvd_rfl).symm
  have hrun := put0_loop_found hpow hlen hpos hchain huniq hhash hj hoccj
    (rt.bucket_count + 1) ⟨key, v, 0, rt.hash_func key rt.seed⟩
    ((rt.hash_func key rt.seed) &&& rt.mask) v hjkey.symm rfl (Nat.zero_le _)
    hidx0 (by omega)
  have hrun2 : robin_table_put0_loop rt.mask rt.buckets
      ⟨key, v, 0, rt.hash_func key rt.seed⟩ v
      ((rt.hash_func key rt.seed) &&& rt.mask) (rt.bucket_count + 1) =
      some (rt.buckets, false, (bucketAt rt.buckets j).val) := by
    simpa only [hmask] using hrun
  rw [put0_eq, hrun2]
  rfl

/-- `robin_table_get_bucket` finds the slot holding the searched key. -/
theorem robin_table_get_bucket_found {rt : RobinTable} (h : WFb rt) {j : Nat}
    (hj : j < rt.bucket_count) (hocc : (bucketAt rt.buckets j).key ≠ []) :
    robin_table_get_bucket rt (bucketAt rt.buckets j).key = some (some j) := by
  obtain ⟨hlen, hpow, hmask, hcount, hlt, hpos, hchain, huniq, hhash⟩ := h
  have hN : 0 < rt.bucket_count := pow2_pos hpow
  obtain ⟨hpN, hpI⟩ := hpos j hj hocc
  rw [get_bucket_eq]
  apply get_loop_found hpow hmask hlen hpos hchain huniq hhash hj hocc
    (rt.bucket_count + 1) 0 _ (Nat.zero_le _) ?_ (by omega)
  rw [hmask, land_mask hpow, Nat.add_zero, hhash j hj hocc]
  exact (Nat.mod_mod_of_dvd _ dvd_rfl).symm

/-- `robin_table_get_bucket` reports a key held by no slot as absent. -/
theorem robin_table_get_bucket_absent {rt : RobinTable} (h : WFb rt)
    {key : List Nat} (hkey : key ≠ [])
    (habs : ∀ i, i < rt.bucket_count → (bucketAt rt.buckets i).key ≠ key) :
    robin_table_get_bucket rt key = some none := by
  obtain ⟨hlen, hpow, hmask, hcount, hlt, hpos, hchain, huniq, hhash⟩ := h
  have hN : 0 < rt.bucket_count := pow2_pos hpow
  obtain ⟨jj, hjj, hemp⟩ := exists_empty_slot hlen (by omega)
  have hidxN : (rt.hash_func key rt.seed) &&& rt.mask < rt.bucket_count := by
    rw [hmask, land_mask hpow]
    exact Nat.mod_lt _ hN
  obtain ⟨d0, hd0N, hd0e⟩ := exists_dist hN (Nat.le_of_lt hidxN) hjj
  rw [get_bucket_eq]
  apply get_loop_absent hpow hmask hlen hkey habs _ (rt.bucket_count + 1) d0 0
    _ hidxN ?_ (by omega)
  rw [hd0e]
  exact hemp

theorem bucketAt_lt {B : List Bucket} {i : Nat} (h : i < B.length) :
    bucketAt B i = B[i] := by
  simp [bucketAt, List.getD_eq_getElem?_getD, List.getElem?_eq_getElem h]

theorem hasKey_iff {B : List Bucket} {kk : List Nat} :
    hasKey B kk ↔ ∃ vv, hasKeyVal B kk vv := by
  constructor
  · rintro ⟨i, hi, hk⟩
    exact ⟨(bucketAt B i).val, i, hi, hk, rfl⟩
  · rintro ⟨vv, i, hi, hk, _⟩
    exact ⟨i, hi, hk⟩

theorem hasKeyVal_mem_iff {B : List Bucket} {kk : List Nat} {vv : Nat} :
    hasKeyVal B kk vv ↔ ∃ b ∈ B, b.key = kk ∧ b.val = vv := by
  constructor
  · rintro ⟨i, hi, hk, hv⟩
    exact ⟨bucketAt B i, bucketAt_mem hi, hk, hv⟩
  · rintro ⟨b, hb, hk, hv⟩
    obtain ⟨i, hi, hib⟩ := List.getElem_of_mem hb
    exact ⟨i, hi, by rw [bucketAt_lt hi, hib]; exact ⟨hk, hv⟩⟩

theorem hasKeyVal_replicate {n : Nat} {kk : List Nat} {vv : Nat}
    (hkk : kk ≠ []) : ¬hasKeyVal (List.replicate n emptyBucket) kk vv := by
  rintro ⟨i, hi, hk, _⟩
  rw [bucketAt_replicate_empty] at hk
  exact hkk hk.symm

/-- A table whose bucket array is all-zeroed with a zero count is
bucket-level well-formed. -/
theorem WFb_of_empty {rt1 : RobinTable}
    (hb : rt1.buckets = List.replicate rt1.bucket_count emptyBucket)
    (hc : rt1.count = 0)
    (hpow : rt1.bucket_count = 2 ^ Nat.log2 rt1.bucket_count)
    (hm : rt1.mask = rt1.bucket_count - 1) : WFb rt1 := by
  refine ⟨by rw [hb]; simp, hpow, hm,
    by rw [hc, hb, countOcc_replicate], by rw [hc]; exact pow2_pos hpow,
    ?_, ?_, ?_, ?_⟩
  · intro i hi hocc
    rw [hb, bucketAt_replicate_empty] at hocc
    exact absurd rfl hocc
  · intro i hi hocc
    rw [hb, bucketAt_replicate_empty] at hocc
    exact absurd rfl hocc
  · intro i hi j hj hij hocci hoccj
    rw [hb, bucketAt_replicate_empty] at hocci
    exact absurd rfl hocci
  · intro i hi hocc
    rw [hb, bucketAt_replicate_empty] at hocc
    exact absurd rfl hocc

/-- The reinsertion fold of `robin_table_resize`: folding `robin_table_put0`
over a list of old entries with pairwise-distinct fresh keys inserts them
all. -/
theorem resize_fold {N2 : Nat} :
    ∀ (L : List Bucket) (rt1 : RobinTable),
      WFb rt1 → rt1.bucket_count = N2 →
      rt1.count + countOcc L < N2 →
      (∀ b ∈ L, b.key ≠ [] → ∀ i, i < N2 →
        (bucketAt rt1.buckets i).key ≠ b.key) →
      List.Pairwise (fun b1 b2 => b1.key ≠ [] → b2.key ≠ [] →
        b1.key ≠ b2.key) L →
      ∃ rt2, L.foldl robin_table_resize_step (some rt1) = some rt2 ∧
        WFb rt2 ∧ rt2.bucket_count = N2 ∧
        rt2.count = rt1.count + countOcc L ∧
        rt2.init_buckets = rt1.init_buckets ∧ rt2.mask = rt1.mask ∧
        rt2.expand_at = rt1.expand_at ∧ rt2.shrink_at = rt1.shrink_at ∧
        rt2.seed = rt1.seed ∧ rt2.hash_func = rt1.hash_func ∧
        (∀ kk vv, kk ≠ [] → (hasKeyVal rt2.buckets kk vv ↔
          (hasKeyVal rt1.buckets kk vv ∨
            ∃ b ∈ L, b.key = kk ∧ b.val = vv)))
  | [], rt1 => by
    intro h1 hbc hroom hfr hpw
    refine ⟨rt1, rfl, h1, hbc, by simp [countOcc], rfl, rfl, rfl, rfl, rfl,
      rfl, ?_⟩
    intro kk vv hkk
    simp
  | b :: L, rt1 => by
    intro h1 hbc hroom hfr hpw
    rw [countOcc_cons] at hroom
    by_cases hbk : b.key = []
    · rw [List.foldl_cons,
        show robin_table_resize_step (some rt1) b = some rt1 from by
          simp [robin_table_resize_step, hbk]]
      obtain ⟨rt2, hfold, h2, hbc2, hcnt2, hi2, hm2, he2, hs2, hsd2, hhf2,
        hmap2⟩ := resize_fold L rt1 h1 hbc (by rw [if_pos hbk] at hroom; omega)
        (fun c hc => hfr c (List.mem_cons_of_mem b hc)) hpw.of_cons
      refine ⟨rt2, hfold, h2, hbc2, ?_, hi2, hm2, he2, hs2, hsd2, hhf2, ?_⟩
      · rw [hcnt2, countOcc_cons, if_pos hbk]
        omega
      · intro kk vv hkk
        rw [hmap2 kk vv hkk]
        constructor
        · rintro (h | ⟨c, hc, hck, hcv⟩)
          · exact Or.inl h
          · exact Or.inr ⟨c, List.mem_cons_of_mem b hc, hck, hcv⟩
        · rintro (h | ⟨c, hc, hck, hcv⟩)
          · exact Or.inl h
          · rcases List.mem_cons.mp hc with hcb | hcL
            · subst hcb
              rw [hbk] at hck
              exact absurd hck.symm hkk
            · exact Or.inr ⟨c, hcL, hck, hcv⟩
    · rw [List.foldl_cons]
      rw [if_neg hbk] at hroom
      obtain ⟨rt2, hput, h2, hcnt2, hbc2, hi2, hm2, he2, hs2, hsd2, hhf2,
        hmap2⟩ := robin_table_put0_fresh h1 (by omega) hbk
        (by rw [hbc]; exact hfr b (List.mem_cons_self b L) hbk) b.val
      rw [show robin_table_resize_step (some rt1) b =
          (robin_table_put0 rt1 b.key b.val).map Prod.fst from by
        simp [robin_table_resize_step, hbk]]
      rw [hput]
      obtain ⟨rt3, hfold, h3, hbc3, hcnt3, hi3, hm3, he3, hs3, hsd3, hhf3,
        hmap3⟩ := resize_fold L rt2 h2 (hbc2.trans hbc)
        (by rw [hcnt2]; omega)
        (by
          intro c hc hck i hi hcontra
          have hkey2 : hasKey rt2.buckets c.key := by
            refine ⟨i, ?_, hcontra⟩
            have hl := h2.1
            rw [hl, hbc2, hbc]
            exact hi
          obtain ⟨vv, hkv⟩ := hasKey_iff.mp hkey2
          rcases (hmap2 c.key vv hck).mp hkv with hold | ⟨hkb, _⟩
          · obtain ⟨i2, hi2x, hk2, _⟩ := hold
            have hi2N : i2 < N2 := by
              have hl := h1.1
              rw [hl, hbc] at hi2x
              exact hi2x
            exact hfr c (List.mem_cons_of_mem b hc) hck i2 hi2N hk2
          · exact (List.rel_of_pairwise_cons hpw hc hbk hck) hkb.symm)
        hpw.of_cons
      refine ⟨rt3, hfold, h3, hbc3, ?_, hi3.trans hi2, hm3.trans hm2,
        he3.trans he2, hs3.trans hs2, hsd3.trans hsd2, hhf3.trans hhf2, ?_⟩
      · rw [hcnt3, hcnt2, countOcc_cons, if_neg hbk]
        omega
      · intro kk vv hkk
        rw [hmap3 kk vv hkk, hmap2 kk vv hkk]
        constructor
        · rintro ((h | ⟨hkb, hvb⟩) | ⟨c, hc, hck, hcv⟩)
          · exact Or.inl h
          · exact Or.inr ⟨b, List.mem_cons_self b L, hkb.symm, hvb.symm⟩
          · exact Or.inr ⟨c, List.mem_cons_of_mem b hc, hck, hcv⟩
        · rintro (h | ⟨c, hc, hck, hcv⟩)
          · exact Or.inl (Or.inl h)
          · rcases List.mem_cons.mp hc with hcb | hcL
            · subst hcb
              exact Or.inl (Or.inr ⟨hck.symm, hcv.symm⟩)
            · exact Or.inr ⟨c, hcL, hck, hcv⟩

/-- Unfolding equation for a successful-allocation `robin_table_resize`. -/
theorem resize_true_eq (rt : RobinTable) (bc : Nat) :
    robin_table_resize true rt bc =
      (rt.buckets.foldl robin_table_resize_step
        (some { rt with
                  buckets := List.replicate bc emptyBucket
                  count := 0
                  bucket_count := bc
                  mask := bc - 1
                  expand_at := bc * RT_LOAD_FACTOR_PCT_MAX / 100
                  shrink_at := bc * RT_LOAD_FACTOR_PCT_MIN / 100 })).map some
    := rfl

/-- `robin_table_resize` with a successful allocation to any power-of-two
size exceeding the entry count succeeds, preserves the contents and the
count, and installs the recomputed thresholds. -/
theorem robin_table_resize_ok {rt : RobinTable} (h : WFb rt) {N2 : Nat}
    (hpow2 : N2 = 2 ^ Nat.log2 N2) (hroom : rt.count < N2) :
    ∃ rt2, robin_table_resize true rt N2 = some (some rt2) ∧ WFb rt2 ∧
      rt2.bucket_count = N2 ∧ rt2.count = rt.count ∧
      rt2.init_buckets = rt.init_buckets ∧ rt2.seed = rt.seed ∧
      rt2.hash_func = rt.hash_func ∧ rt2.mask = N2 - 1 ∧
      rt2.expand_at = N2 * RT_LOAD_FACTOR_PCT_MAX / 100 ∧
      rt2.shrink_at = N2 * RT_LOAD_FACTOR_PCT_MIN / 100 ∧
      (∀ kk vv, kk ≠ [] → (hasKeyVal rt2.buckets kk vv ↔
        hasKeyVal rt.buckets kk vv)) := by
  obtain ⟨hlen, hpow, hmask, hcount, hlt, hpos, hchain, huniq, hhash⟩ := h
  have h1 : WFb { rt with
      buckets := List.replicate N2 emptyBucket
      count := 0
      bucket_count := N2
      mask := N2 - 1
      expand_at := N2 * RT_LOAD_FACTOR_PCT_MAX / 100
      shrink_at := N2 * RT_LOAD_FACTOR_PCT_MIN / 100 } :=
    WFb_of_empty rfl rfl hpow2 rfl
  have hpw : List.Pairwise (fun b1 b2 => b1.key ≠ [] → b2.key ≠ [] →
      b1.key ≠ b2.key) rt.buckets := by
    rw [List.pairwise_iff_getElem]
    intro i j hi hj hij
    rw [← bucketAt_lt hi, ← bucketAt_lt hj]
    exact huniq i (hlen ▸ hi) j (hlen ▸ hj) (by omega)
  obtain ⟨rt2, hfold, h2, hbc2, hcnt2, hi2, hm2, he2, hs2, hsd2, hhf2,
    hmap2⟩ := resize_fold rt.buckets
    { rt with
        buckets := List.replicate N2 emptyBucket
        count := 0
        bucket_count := N2
        mask := N2 - 1
        expand_at := N2 * RT_LOAD_FACTOR_PCT_MAX / 100
        shrink_at := N2 * RT_LOAD_FACTOR_PCT_MIN / 100 }
    h1 rfl (by show 0 + countOcc rt.buckets < N2; omega)
    (by
      intro b hb hbk i hi
      show (bucketAt (List.replicate N2 emptyBucket) i).key ≠ b.key
      rw [bucketAt_replicate_empty]
      exact fun hc => hbk hc.symm)
    hpw
  refine ⟨rt2, ?_, h2, hbc2, ?_, hi2, hsd2, hhf2, hm2, he2, hs2, ?_⟩
  · rw [resize_true_eq, hfold]
    rfl
  · rw [hcnt2]
    show 0 + countOcc rt.buckets = rt.count
    omega
  · intro kk vv hkk
    rw [hmap2 kk vv hkk]
    constructor
    · rintro (hempty | hmem)
      · exact absurd hempty (hasKeyVal_replicate hkk)
      · exact hasKeyVal_mem_iff.mpr hmem
    · intro hx
      exact Or.inr (hasKeyVal_mem_iff.mp hx)

theorem mod_cancel_right {N a b c : Nat} (hb : b < N) (hc : c < N)
    (h : (b + a) % N = (c + a) % N) : b = c := by
  have h2 : (a + b) % N = (a + c) % N := by
    rwa [Nat.add_comm b a, Nat.add_comm c a] at h
  exact mod_cancel_left hb hc h2

theorem countOcc_pos {B : List Bucket} {i : Nat} (h : i < B.length)
    (hocc : (bucketAt B i).key ≠ []) : 1 ≤ countOcc B := by
  have := countOcc_set_erase h hocc
  omega

/-- One-step unfolding of the backward-shift loop of `robin_table_del`. -/
theorem del_loop_succ (mask : Nat) (B : List Bucket) (bidx fuel : Nat) :
    robin_table_del_loop mask B bidx (fuel + 1) =
      if (bucketAt B ((bidx + 1) &&& mask)).key = [] ∨
          (bucketAt B ((bidx + 1) &&& mask)).psl = 0 then
        some (B.set bidx emptyBucket)
      else
        robin_table_del_loop mask
          ((B.set ((bidx + 1) &&& mask)
              { bucketAt B ((bidx + 1) &&& mask) with
                  psl := (bucketAt B ((bidx + 1) &&& mask)).psl - 1 }).set bidx
            { bucketAt B ((bidx + 1) &&& mask) with
                psl := (bucketAt B ((bidx + 1) &&& mask)).psl - 1 })
          ((bidx + 1) &&& mask) fuel := rfl

theorem countOcc_set_empty_same {B : List Bucket} {i : Nat}
    (h : i < B.length) (h1 : (bucketAt B i).key = []) :
    countOcc (B.set i emptyBucket) = countOcc B := by
  have hs := countOcc_set B i emptyBucket h
  have he : emptyBucket.key = ([] : List Nat) := rfl
  rw [if_pos h1, if_pos he] at hs
  omega

/-- The backward-shift loop of `robin_table_del`: starting from a vacated
slot `bidx` whose ghost state (slot `bidx` zeroed) satisfies the invariants
except possibly the local chain pair at `bidx`, the loop terminates and
produces a fully invariant array with the same contents and occupancy as the
ghost state. -/
theorem del_loop_ok {N : Nat} (hpow : N = 2 ^ Nat.log2 N) (hN4 : 4 ≤ N)
    {hf : List Nat → Nat → Nat} {seed : Nat} :
    ∀ (fuel : Nat) (B : List Bucket) (bidx d1 : Nat),
      B.length = N → bidx < N →
      pslPos (B.set bidx emptyBucket) N →
      uniqKeys (B.set bidx emptyBucket) N →
      hashCached (B.set bidx emptyBucket) N hf seed →
      (∀ i, i < N → i ≠ bidx → pairOK (B.set bidx emptyBucket) N i) →
      (∀ p, (bucketAt (B.set bidx emptyBucket) ((bidx + 1) % N)).key ≠ [] →
        (bucketAt (B.set bidx emptyBucket) ((bidx + 1) % N)).psl = p →
        2 ≤ p →
        (bucketAt (B.set bidx emptyBucket) ((bidx + (N - 1)) % N)).key ≠ [] ∧
        p - 2 ≤
          (bucketAt (B.set bidx emptyBucket) ((bidx + (N - 1)) % N)).psl) →
      1 ≤ d1 → d1 < N →
      (bucketAt B ((bidx + d1) % N)).key = [] →
      d1 < fuel →
      ∃ B2, robin_table_del_loop (N - 1) B bidx fuel = some B2 ∧
        B2.length = N ∧ pslPos B2 N ∧ chainOK B2 N ∧ uniqKeys B2 N ∧
        hashCached B2 N hf seed ∧
        countOcc B2 = countOcc (B.set bidx emptyBucket) ∧
        (∀ kk vv, kk ≠ [] → (hasKeyVal B2 kk vv ↔
          hasKeyVal (B.set bidx emptyBucket) kk vv)) := by
  have hN : 0 < N := by omega
  have hmask : ∀ x : Nat, x &&& (N - 1) = x % N := land_mask hpow
  intro fuel
  induction fuel with
  | zero =>
    intro B bidx d1 _ _ _ _ _ _ _ _ _ _ hfuel
    omega
  | succ fuel ih =>
    intro B bidx d1 hlen hbN hpos huniq hhash hlocal hnb hd1a hd1N hd1 hfuel
    have hidxm : (bidx + 1) &&& (N - 1) = (bidx + 1) % N := hmask (bidx + 1)
    have hiN : (bidx + 1) % N < N := Nat.mod_lt _ hN
    have hib : (bidx + 1) % N ≠ bidx := by
      intro hc
      have h0 : (bidx + 1) % N = (bidx + 0) % N := by
        rw [hc, Nat.add_zero, Nat.mod_eq_of_lt hbN]
      exact absurd (mod_cancel_left (by omega) hN h0) (by omega)
    have hg_b : bucketAt (B.set bidx emptyBucket) bidx = emptyBucket :=
      bucketAt_set_self (hlen ▸ hbN) _
    have hg_ne : ∀ x, x ≠ bidx →
        bucketAt (B.set bidx emptyBucket) x = bucketAt B x := by
      intro x hx
      exact bucketAt_set_ne (Ne.symm hx) _
    rw [del_loop_succ, hidxm]
    by_cases hstop : (bucketAt B ((bidx + 1) % N)).key = [] ∨
        (bucketAt B ((bidx + 1) % N)).psl = 0
    · rw [if_pos hstop]
      refine ⟨B.set bidx emptyBucket, rfl, by simpa using hlen, hpos, ?_,
        huniq, hhash, rfl, fun kk vv hkk => Iff.rfl⟩
      apply chainOK_of_pairOK hN hpos
      intro i hi
      by_cases hibx : i = bidx
      · subst hibx
        intro hocc hpsl
        rw [hg_ne _ hib] at hocc hpsl
        rcases hstop with hs | hs
        · exact absurd hs hocc
        · omega
      · exact hlocal i hi hibx
    · rw [if_neg hstop]
      push_neg at hstop
      obtain ⟨hocc1, hpsl1⟩ := hstop
      obtain ⟨hpNn, hpEq⟩ := hpos ((bidx + 1) % N) hiN
        (by rw [bucketAt_set_ne (Ne.symm hib)]; exact hocc1)
      rw [bucketAt_set_ne (Ne.symm hib)] at hpNn hpEq
      set nb := bucketAt B ((bidx + 1) % N) with hnbd
      have hp1 : 1 ≤ nb.psl := Nat.one_le_iff_ne_zero.mpr hpsl1
      have hd1b : 2 ≤ d1 := by
        by_contra hc
        have h1 : d1 = 1 := by omega
        rw [h1] at hd1
        exact hocc1 hd1
      have hprev_eq : (((bidx + (N - 1)) % N) + 1) % N = bidx := by
        rw [Nat.mod_add_mod]
        have hx : bidx + (N - 1) + 1 = bidx + N := by omega
        rw [hx, Nat.add_mod_right]
        exact Nat.mod_eq_of_lt hbN
      have hprevN : (bidx + (N - 1)) % N < N := Nat.mod_lt _ hN
      have hprev_ne_b : (bidx + (N - 1)) % N ≠ bidx := by
        intro hc
        have h0 : (bidx + (N - 1)) % N = (bidx + 0) % N := by
          rw [hc, Nat.add_zero, Nat.mod_eq_of_lt hbN]
        exact absurd (mod_cancel_left (by omega) hN h0) (by omega)
      have hprev_ne_i : (bidx + (N - 1)) % N ≠ (bidx + 1) % N := by
        intro hc
        exact absurd (mod_cancel_left (by omega) (by omega) hc) (by omega)
      have hnext2_ne_b : ((bidx + 1) % N + 1) % N ≠ bidx := by
        intro hc
        rw [Nat.mod_add_mod] at hc
        have hq : bidx + 1 + 1 = bidx + 2 := by omega
        rw [hq] at hc
        have h0 : (bidx + 2) % N = (bidx + 0) % N := by
          rw [hc, Nat.add_zero, Nat.mod_eq_of_lt hbN]
        have hd : (2 : Nat) = 0 := mod_cancel_left (by omega) hN h0
        omega
      have hnext2_ne_i : ((bidx + 1) % N + 1) % N ≠ (bidx + 1) % N := by
        intro hc
        rw [Nat.mod_add_mod] at hc
        have hq : bidx + 1 + 1 = bidx + 2 := by omega
        rw [hq] at hc
        have hd : (2 : Nat) = 1 := mod_cancel_left (by omega) (by omega) hc
        omega
      set B3 := (B.set ((bidx + 1) % N) { nb with psl := nb.psl - 1 }).set
        bidx { nb with psl := nb.psl - 1 } with hB3d
      have hlen3 : B3.length = N := by rw [hB3d]; simpa using hlen
      have hB3_b : bucketAt B3 bidx = { nb with psl := nb.psl - 1 } := by
        rw [hB3d]
        exact bucketAt_set_self (by simp only [List.length_set, hlen]; exact
          hbN) _
      have hB3_i : bucketAt B3 ((bidx + 1) % N) =
          { nb with psl := nb.psl - 1 } := by
        rw [hB3d, bucketAt_set_ne (Ne.symm hib)]
        exact bucketAt_set_self (hlen ▸ hiN) _
      have hB3_ne : ∀ x, x ≠ bidx → x ≠ (bidx + 1) % N →
          bucketAt B3 x = bucketAt B x := by
        intro x hx1 hx2
        rw [hB3d, bucketAt_set_ne (Ne.symm hx1), bucketAt_set_ne (Ne.symm hx2)]
      have hg3_i : bucketAt (B3.set ((bidx + 1) % N) emptyBucket)
          ((bidx + 1) % N) = emptyBucket :=
        bucketAt_set_self (hlen3 ▸ hiN) _
      have hg3_b : bucketAt (B3.set ((bidx + 1) % N) emptyBucket) bidx =
          { nb with psl := nb.psl - 1 } := by
        rw [bucketAt_set_ne hib]
        exact hB3_b
      have hg3_ne : ∀ x, x ≠ bidx → x ≠ (bidx + 1) % N →
          bucketAt (B3.set ((bidx + 1) % N) emptyBucket) x = bucketAt B x := by
        intro x hx1 hx2
        rw [bucketAt_set_ne (Ne.symm hx2)]
        exact hB3_ne x hx1 hx2
      have hpos3 : pslPos (B3.set ((bidx + 1) % N) emptyBucket) N := by
        intro x hx hocc
        by_cases hxi : x = (bidx + 1) % N
        · rw [hxi, hg3_i] at hocc
          exact absurd rfl hocc
        · by_cases hxb : x = bidx
          · rw [hxb, hg3_b]
            constructor
            · show nb.psl - 1 < N
              omega
            · show (nb.hash % N + (nb.psl - 1)) % N = bidx
              have hu : ((nb.hash % N + (nb.psl - 1)) % N + 1) % N =
                  (bidx + 1) % N := by
                rw [Nat.mod_add_mod]
                have hq : nb.hash % N + (nb.psl - 1) + 1 =
                    nb.hash % N + nb.psl := by omega
                rw [hq, hpEq]
              exact mod_cancel_right (Nat.mod_lt _ hN) hbN hu
          · rw [hg3_ne x hxb hxi] at hocc ⊢
            have hres := hpos x hx (by rw [hg_ne x hxb]; exact hocc)
            rwa [hg_ne x hxb] at hres
      have huniq3 : uniqKeys (B3.set ((bidx + 1) % N) emptyBucket) N := by
        intro i hi j hj hij hocci hoccj
        by_cases hii : i = (bidx + 1) % N
        · rw [hii, hg3_i] at hocci
          exact absurd rfl hocci
        · by_cases hjj : j = (bidx + 1) % N
          · rw [hjj, hg3_i] at hoccj
            exact absurd rfl hoccj
          · by_cases hib2 : i = bidx
            · have hjb : j ≠ bidx := by
                rw [hib2] at hij
                exact fun hc => hij hc.symm
              rw [hib2, hg3_b]
              rw [hg3_ne j hjb hjj] at hoccj ⊢
              have hres := huniq ((bidx + 1) % N) hiN j hj
                (fun hc => hjj hc.symm) (by rw [hg_ne _ hib]; exact hocc1)
                (by rw [hg_ne j hjb]; exact hoccj)
              rw [hg_ne _ hib, hg_ne j hjb] at hres
              exact hres
            · by_cases hjb : j = bidx
              · rw [hjb, hg3_b]
                rw [hg3_ne i hib2 hii] at hocci ⊢
                have hres := huniq i hi ((bidx + 1) % N) hiN hii
                  (by rw [hg_ne i hib2]; exact hocci)
                  (by rw [hg_ne _ hib]; exact hocc1)
                rw [hg_ne i hib2, hg_ne _ hib] at hres
                exact hres
              · rw [hg3_ne i hib2 hii] at hocci ⊢
                rw [hg3_ne j hjb hjj] at hoccj ⊢
                have hres := huniq i hi j hj hij
                  (by rw [hg_ne i hib2]; exact hocci)
                  (by rw [hg_ne j hjb]; exact hoccj)
                rw [hg_ne i hib2, hg_ne j hjb] at hres
                exact hres
      have hhash3 : hashCached (B3.set ((bidx + 1) % N) emptyBucket) N hf
          seed := by
        intro x hx hocc
        by_cases hxi : x = (bidx + 1) % N
        · rw [hxi, hg3_i] at hocc
          exact absurd rfl hocc
        · by_cases hxb : x = bidx
          · rw [hxb, hg3_b]
            show nb.hash = hf nb.key seed
            have hres := hhash ((bidx + 1) % N) hiN
              (by rw [hg_ne _ hib]; exact hocc1)
            rwa [hg_ne _ hib] at hres
          · rw [hg3_ne x hxb hxi] at hocc ⊢
            have hres := hhash x hx (by rw [hg_ne x hxb]; exact hocc)
            rwa [hg_ne x hxb] at hres
      have hlocal3 : ∀ i, i < N → i ≠ (bidx + 1) % N →
          pairOK (B3.set ((bidx + 1) % N) emptyBucket) N i := by
        intro i hi hine
        by_cases hib2 : i = bidx
        · subst hib2
          intro hocc
          rw [hg3_i] at hocc
          exact absurd rfl hocc
        · by_cases hiprev : i = (bidx + (N - 1)) % N
          · subst hiprev
            intro hocc hpsl
            rw [hprev_eq, hg3_b] at hocc hpsl ⊢
            have hpsl2 : 1 ≤ nb.psl - 1 := hpsl
            obtain ⟨hoA, hoB⟩ := hnb nb.psl
              (by rw [hg_ne _ hib]; exact hocc1)
              (by rw [hg_ne _ hib]) (by omega)
            rw [hg_ne _ hprev_ne_b] at hoA hoB
            constructor
            · rw [hg3_ne _ hprev_ne_b hprev_ne_i]
              exact hoA
            · rw [hg3_ne _ hprev_ne_b hprev_ne_i]
              show ({ nb with psl := nb.psl - 1 } : Bucket).psl - 1 ≤ _
              have hred : ({ nb with psl := nb.psl - 1 } : Bucket).psl =
                  nb.psl - 1 := rfl
              rw [hred]
              omega
          · have hsb : (i + 1) % N ≠ bidx := by
              intro hc
              have h2 : (i + 1) % N = (((bidx + (N - 1)) % N) + 1) % N := by
                rw [hprev_eq]
                exact hc
              exact hiprev (mod_cancel_right hi hprevN h2)
            have hsi : (i + 1) % N ≠ (bidx + 1) % N := by
              intro hc
              exact hib2 (mod_cancel_right hi hbN hc)
            intro hocc hpsl
            rw [hg3_ne _ hsb hsi] at hocc hpsl
            rw [hg3_ne i hib2 hine, hg3_ne _ hsb hsi]
            have hres := hlocal i hi hib2
              (by rw [hg_ne _ hsb]; exact hocc)
              (by rw [hg_ne _ hsb]; exact hpsl)
            rw [hg_ne i hib2, hg_ne _ hsb] at hres
            exact hres
      have hnb3 : ∀ p2, (bucketAt (B3.set ((bidx + 1) % N) emptyBucket)
          (((bidx + 1) % N + 1) % N)).key ≠ [] →
          (bucketAt (B3.set ((bidx + 1) % N) emptyBucket)
            (((bidx + 1) % N + 1) % N)).psl = p2 → 2 ≤ p2 →
          (bucketAt (B3.set ((bidx + 1) % N) emptyBucket)
            (((bidx + 1) % N + (N - 1)) % N)).key ≠ [] ∧
          p2 - 2 ≤ (bucketAt (B3.set ((bidx + 1) % N) emptyBucket)
            (((bidx + 1) % N + (N - 1)) % N)).psl := by
        intro p2 hocc2 hpsl2 hp2
        rw [hg3_ne _ hnext2_ne_b hnext2_ne_i] at hocc2 hpsl2
        have htgt : (((bidx + 1) % N) + (N - 1)) % N = bidx := by
          rw [Nat.mod_add_mod]
          have hq : bidx + 1 + (N - 1) = bidx + N := by omega
          rw [hq, Nat.add_mod_right]
          exact Nat.mod_eq_of_lt hbN
        rw [htgt, hg3_b]
        have hres := hlocal ((bidx + 1) % N) hiN hib
          (by rw [hg_ne _ hnext2_ne_b]; exact hocc2)
          (by rw [hg_ne _ hnext2_ne_b, hpsl2]; omega)
        rw [hg_ne _ hib, hg_ne _ hnext2_ne_b] at hres
        obtain ⟨_, hres2⟩ := hres
        rw [hpsl2] at hres2
        refine ⟨hocc1, ?_⟩
        have hres3 : p2 - 1 ≤ nb.psl := hres2
        show p2 - 2 ≤ nb.psl - 1
        omega
      have ht1 : ((bidx + 1) % N + (d1 - 1)) % N = (bidx + d1) % N := by
        rw [Nat.mod_add_mod]
        congr 1
        omega
      have htb : (bidx + d1) % N ≠ bidx := by
        intro hc
        have h0 : (bidx + d1) % N = (bidx + 0) % N := by
          rw [hc, Nat.add_zero, Nat.mod_eq_of_lt hbN]
        exact absurd (mod_cancel_left hd1N hN h0) (by omega)
      have hti : (bidx + d1) % N ≠ (bidx + 1) % N := by
        intro hc
        exact absurd (mod_cancel_left hd1N (by omega) hc) (by omega)
      have hd13 : (bucketAt B3 (((bidx + 1) % N + (d1 - 1)) % N)).key
          = [] := by
        rw [ht1, hB3_ne _ htb hti]
        exact hd1
      obtain ⟨B2, hrun, hl2, hp2x, hc2x, hu2x, hh2x, hcnt2x, hmap2x⟩ :=
        ih B3 ((bidx + 1) % N) (d1 - 1) hlen3 hiN hpos3 huniq3 hhash3 hlocal3
          hnb3 (by omega) (by omega) hd13 (by omega)
      refine ⟨B2, hrun, hl2, hp2x, hc2x, hu2x, hh2x, ?_, ?_⟩
      · rw [hcnt2x]
        have hshocc : ({ nb with psl := nb.psl - 1 } : Bucket).key ≠ [] :=
          hocc1
        have c1 : countOcc (B.set ((bidx + 1) % N)
            { nb with psl := nb.psl - 1 }) = countOcc B :=
          countOcc_set_occ (hlen ▸ hiN) hocc1 hshocc
        have hatb : bucketAt (B.set ((bidx + 1) % N)
            { nb with psl := nb.psl - 1 }) bidx = bucketAt B bidx :=
          bucketAt_set_ne hib _
        have c3 : countOcc B3 =
            countOcc (B3.set ((bidx + 1) % N) emptyBucket) + 1 :=
          countOcc_set_erase (hlen3 ▸ hiN) (by rw [hB3_i]; exact hshocc)
        by_cases hbocc : (bucketAt B bidx).key = []
        · have c2 : countOcc B3 = countOcc B + 1 := by
            rw [hB3d]
            rw [countOcc_set_insert (by simp only [List.length_set]; exact
              hlen ▸ hbN) (by rw [hatb]; exact hbocc) hshocc, c1]
          have c4 : countOcc (B.set bidx emptyBucket) = countOcc B :=
            countOcc_set_empty_same (hlen ▸ hbN) hbocc
          omega
        · have c2 : countOcc B3 = countOcc B := by
            rw [hB3d]
            rw [countOcc_set_occ (by simp only [List.length_set]; exact
              hlen ▸ hbN) (by rw [hatb]; exact hbocc) hshocc, c1]
          have c4 : countOcc B = countOcc (B.set bidx emptyBucket) + 1 :=
            countOcc_set_erase (hlen ▸ hbN) hbocc
          omega
      · intro kk vv hkk
        rw [hmap2x kk vv hkk]
        have hlg3 : (B3.set ((bidx + 1) % N) emptyBucket).length = N := by
          simpa using hlen3
        have hlg : (B.set bidx emptyBucket).length = N := by
          simpa using hlen
        constructor
        · rintro ⟨x, hx, hkx, hvx⟩
          have hxN : x < N := by rwa [hlg3] at hx
          by_cases hxi : x = (bidx + 1) % N
          · rw [hxi, hg3_i] at hkx
            exact absurd hkx.symm hkk
          · by_cases hxb : x = bidx
            · rw [hxb, hg3_b] at hkx hvx
              refine ⟨(bidx + 1) % N, by rw [hlg]; exact hiN, ?_, ?_⟩
              · rw [hg_ne _ hib]
                exact hkx
              · rw [hg_ne _ hib]
                exact hvx
            · rw [hg3_ne x hxb hxi] at hkx hvx
              refine ⟨x, by rw [hlg]; exact hxN, ?_, ?_⟩
              · rw [hg_ne x hxb]
                exact hkx
              · rw [hg_ne x hxb]
                exact hvx
        · rintro ⟨x, hx, hkx, hvx⟩
          have hxN : x < N := by rwa [hlg] at hx
          by_cases hxb : x = bidx
          · rw [hxb, hg_b] at hkx
            exact absurd hkx.symm hkk
          · rw [hg_ne x hxb] at hkx hvx
            by_cases hxi : x = (bidx + 1) % N
            · rw [hxi] at hkx hvx
              refine ⟨bidx, by rw [hlg3]; exact hbN, ?_, ?_⟩
              · rw [hg3_b]
                exact hkx
              · rw [hg3_b]
                exact hvx
            · refine ⟨x, by rw [hlg3]; exact hxN, ?_, ?_⟩
              · rw [hg3_ne x hxb hxi]
                exact hkx
              · rw [hg3_ne x hxb hxi]
                exact hvx

theorem next_pow2_as_smear (n : Nat) :
    robin_table_next_pow2 n =
      (bit_smear ((n + (2 ^ 64 - 1)) % 2 ^ 64) + 1) % 2 ^ 64 := rfl

/-- Doubling step of the bit-smearing window: if every bit of `y` records
whether `x` has a set bit within a forward window of width `w`, then
`y ||| y >>> w` does so for width `2 * w`. -/
theorem window_double {x y : Nat} {w : Nat}
    (hy : ∀ i, y.testBit i = true ↔
      ∃ j, i ≤ j ∧ j < i + w ∧ x.testBit j = true) :
    ∀ i, (y ||| y >>> w).testBit i = true ↔
      ∃ j, i ≤ j ∧ j < i + (w + w) ∧ x.testBit j = true := by
  intro i
  rw [Nat.testBit_or, Bool.or_eq_true, Nat.testBit_shiftRight, hy i,
    hy (w + i)]
  constructor
  · rintro (⟨j, h1, h2, h3⟩ | ⟨j, h1, h2, h3⟩)
    · exact ⟨j, by omega, by omega, h3⟩
    · exact ⟨j, by omega, by omega, h3⟩
  · rintro ⟨j, h1, h2, h3⟩
    by_cases hj : j < i + w
    · exact Or.inl ⟨j, h1, hj, h3⟩
    · exact Or.inr ⟨j, by omega, by omega, h3⟩

/-- On 64-bit inputs the smearing cascade fills every bit below the leading
one: `bit_smear x = 2 ^ size x - 1`. -/
theorem bit_smear_eq {x : Nat} (hx : x < 2 ^ 64) :
    bit_smear x = 2 ^ Nat.size x - 1 := by
  have base : ∀ i, x.testBit i = true ↔
      ∃ j, i ≤ j ∧ j < i + 1 ∧ x.testBit j = true := by
    intro i
    constructor
    · intro h
      exact ⟨i, Nat.le_refl i, by omega, h⟩
    · rintro ⟨j, h1, h2, h3⟩
      have hij : j = i := by omega
      rwa [hij] at h3
  simp only [bit_smear]
  set y1 := x ||| x >>> 1 with hy1
  set y2 := y1 ||| y1 >>> 2 with hy2
  set y3 := y2 ||| y2 >>> 4 with hy3
  set y4 := y3 ||| y3 >>> 8 with hy4
  set y5 := y4 ||| y4 >>> 16 with hy5
  set y6 := y5 ||| y5 >>> 32 with hy6
  have s1 : ∀ i, y1.testBit i = true ↔
      ∃ j, i ≤ j ∧ j < i + 2 ∧ x.testBit j = true := by
    rw [hy1]
    exact window_double base
  have s2 : ∀ i, y2.testBit i = true ↔
      ∃ j, i ≤ j ∧ j < i + 4 ∧ x.testBit j = true := by
    rw [hy2]
    exact window_double s1
  have s3 : ∀ i, y3.testBit i = true ↔
      ∃ j, i ≤ j ∧ j < i + 8 ∧ x.testBit j = true := by
    rw [hy3]
    exact window_double s2
  have s4 : ∀ i, y4.testBit i = true ↔
      ∃ j, i ≤ j ∧ j < i + 16 ∧ x.testBit j = true := by
    rw [hy4]
    exact window_double s3
  have s5 : ∀ i, y5.testBit i = true ↔
      ∃ j, i ≤ j ∧ j < i + 32 ∧ x.testBit j = true := by
    rw [hy5]
    exact window_double s4
  have s6 : ∀ i, y6.testBit i = true ↔
      ∃ j, i ≤ j ∧ j < i + 64 ∧ x.testBit j = true := by
    rw [hy6]
    exact window_double s5
  have hchar : ∀ i, y6.testBit i = true ↔ i < Nat.size x := by
    intro i
    rw [s6 i]
    constructor
    · rintro ⟨j, h1, _, h3⟩
      have hj : j < Nat.size x := by
        by_contra hc
        push_neg at hc
        have hlt : x < 2 ^ j :=
          Nat.lt_of_lt_of_le (Nat.lt_size_self x)
            (Nat.pow_le_pow_right (by norm_num) hc)
        rw [Nat.testBit_lt_two_pow hlt] at h3
        simp at h3
      omega
    · intro hi
      have hx0 : x ≠ 0 := by
        intro hc
        rw [hc] at hi
        simp [Nat.size_zero] at hi
      have hs1 : 1 ≤ Nat.size x := Nat.size_pos.mpr (Nat.pos_of_ne_zero hx0)
      have hhi : 2 ^ (Nat.size x - 1) ≤ x := by
        rw [← Nat.lt_size]
        omega
      have hlo : x < 2 ^ (Nat.size x - 1) * 2 := by
        have hq : 2 ^ (Nat.size x - 1) * 2 = 2 ^ Nat.size x := by
          rw [← pow_succ]
          congr 1
          omega
        rw [hq]
        exact Nat.lt_size_self x
      have hbit : x.testBit (Nat.size x - 1) = true := by
        rw [Nat.testBit_to_div_mod]
        have hdiv : x / 2 ^ (Nat.size x - 1) = 1 := by
          have hg1 : 1 ≤ x / 2 ^ (Nat.size x - 1) :=
            (Nat.le_div_iff_mul_le (Nat.two_pow_pos _)).mpr (by omega)
          have hg2 : x / 2 ^ (Nat.size x - 1) < 2 :=
            Nat.div_lt_of_lt_mul hlo
          omega
        rw [hdiv]
        norm_num
      have hsz64 : Nat.size x ≤ 64 := Nat.size_le.mpr hx
      exact ⟨Nat.size x - 1, by omega, by omega, hbit⟩
  apply Nat.eq_of_testBit_eq
  intro i
  rw [Nat.testBit_two_pow_sub_one]
  by_cases hi : i < Nat.size x
  · rw [(hchar i).mpr hi]
    simp [hi]
  · have hbf : y6.testBit i = false := by
      cases hbx : y6.testBit i
      · rfl
      · exact absurd ((hchar i).mp hbx) hi
    rw [hbf]
    simp [hi]

/-- `robin_table_next_pow2` on inputs in `[1, 2 ^ 63]` computes
`2 ^ size (m - 1)`, the least power of two at or above `m`. -/
theorem next_pow2_eq_pow {m : Nat} (h1 : 1 ≤ m) (h2 : m ≤ 2 ^ 63) :
    robin_table_next_pow2 m = 2 ^ Nat.size (m - 1) := by
  rw [next_pow2_as_smear]
  have hd : (m + (2 ^ 64 - 1)) % 2 ^ 64 = m - 1 := by
    have hq : m + (2 ^ 64 - 1) = (m - 1) + 2 ^ 64 := by omega
    rw [hq, Nat.add_mod_right]
    exact Nat.mod_eq_of_lt (by omega)
  rw [hd, bit_smear_eq (by omega)]
  have hsz : Nat.size (m - 1) ≤ 63 := by
    apply Nat.size_le.mpr
    have : (2 : Nat) ^ 63 ≤ 2 ^ 63 := Nat.le_refl _
    omega
  have hpos : 0 < 2 ^ Nat.size (m - 1) := Nat.two_pow_pos _
  have hlt : 2 ^ Nat.size (m - 1) < 2 ^ 64 :=
    Nat.lt_of_le_of_lt (Nat.pow_le_pow_right (by norm_num) hsz) (by norm_num)
  have hq : 2 ^ Nat.size (m - 1) - 1 + 1 = 2 ^ Nat.size (m - 1) := by omega
  rw [hq]
  exact Nat.mod_eq_of_lt hlt

/-- The least power of two at or above `m` expressed through `Nat.clog`. -/
theorem size_pred_eq_clog {m : Nat} (h1 : 1 ≤ m) :
    2 ^ Nat.size (m - 1) = 2 ^ Nat.clog 2 m := by
  have ha : m ≤ 2 ^ Nat.size (m - 1) := by
    have := Nat.lt_size_self (m - 1)
    omega
  have hb : m ≤ 2 ^ Nat.clog 2 m := Nat.le_pow_clog (by norm_num) m
  have h1x : Nat.clog 2 m ≤ Nat.size (m - 1) :=
    (Nat.le_pow_iff_clog_le (by norm_num)).mp ha
  have h2x : Nat.size (m - 1) ≤ Nat.clog 2 m := Nat.size_le.mpr (by omega)
  have hq : Nat.size (m - 1) = Nat.clog 2 m := by omega
  rw [hq]

/-- The bucket count chosen by the capacity policy is a power of two at or
above `RT_BUCKET_COUNT_MIN`. -/
theorem robin_table_calc_pow (n : Nat) :
    robin_table_calc_bucket_count n =
      2 ^ Nat.log2 (robin_table_calc_bucket_count n) ∧
    RT_BUCKET_COUNT_MIN ≤ robin_table_calc_bucket_count n := by
  unfold robin_table_calc_bucket_count
  by_cases hlt : (n * 100) % 2 ^ 64 / RT_LOAD_FACTOR_PCT_MAX <
      RT_BUCKET_COUNT_MIN
  · rw [if_pos hlt]
    exact ⟨pow2_of_exists (show RT_BUCKET_COUNT_MIN = 2 ^ 5 from rfl),
      Nat.le_refl _⟩
  · rw [if_neg hlt]
    push_neg at hlt
    have hmod : (n * 100) % 2 ^ 64 < 2 ^ 64 := Nat.mod_lt _ (by norm_num)
    have hraw63 : (n * 100) % 2 ^ 64 / RT_LOAD_FACTOR_PCT_MAX ≤ 2 ^ 63 := by
      unfold RT_LOAD_FACTOR_PCT_MAX
      omega
    have h32 : (32 : Nat) ≤ (n * 100) % 2 ^ 64 / RT_LOAD_FACTOR_PCT_MAX :=
      hlt
    rw [next_pow2_eq_pow (by omega) hraw63]
    constructor
    · exact pow2_of_exists rfl
    · have hge := Nat.lt_size_self
        ((n * 100) % 2 ^ 64 / RT_LOAD_FACTOR_PCT_MAX - 1)
      show (32 : Nat) ≤ _
      omega

/-- A freshly created table is well-formed, empty, and has equal bucket and
initial-bucket counts given by the capacity policy. -/
theorem robin_table_create_wf (n : Nat) (hfn : List Nat → Nat → Nat)
    (s : Nat) :
    WF (robin_table_create n hfn s) ∧
    (robin_table_create n hfn s).count = 0 ∧
    (robin_table_create n hfn s).bucket_count =
      robin_table_calc_bucket_count n ∧
    (robin_table_create n hfn s).init_buckets =
      robin_table_calc_bucket_count n ∧
    (∀ kk vv, kk ≠ [] →
      ¬ hasKeyVal (robin_table_create n hfn s).buckets kk vv) := by
  obtain ⟨hpow, h32⟩ := robin_table_calc_pow n
  refine ⟨⟨WFb_of_empty rfl rfl hpow rfl, h32, hpow, Nat.le_refl _, rfl, rfl⟩,
    rfl, rfl, rfl, ?_⟩
  intro kk vv hkk
  exact hasKeyVal_replicate hkk

/-- Slots never hold a key that is not in the table. -/
theorem habs_of_not_hasKey {B : List Bucket} {N : Nat} (hlen : B.length = N)
    {kk : List Nat} (h : ¬ hasKey B kk) :
    ∀ i, i < N → (bucketAt B i).key ≠ kk := by
  intro i hi hc
  exact h ⟨i, hlen ▸ hi, hc⟩

/-- Zeroing the unique slot holding a key removes exactly that binding. -/
theorem hasKeyVal_erase_iff {N : Nat} {B : List Bucket} (hlen : B.length = N)
    (huniq : uniqKeys B N) {j : Nat} (hj : j < N)
    (hocc : (bucketAt B j).key ≠ []) (kk : List Nat) (vv : Nat)
    (hkk : kk ≠ []) :
    hasKeyVal (B.set j emptyBucket) kk vv ↔
      (hasKeyVal B kk vv ∧ kk ≠ (bucketAt B j).key) := by
  constructor
  · rintro ⟨x, hx, hkx, hvx⟩
    have hxN : x < N := by
      rw [List.length_set] at hx
      omega
    have hxj : x ≠ j := by
      intro hc
      rw [hc, bucketAt_set_self (hlen ▸ hj)] at hkx
      exact hkk hkx.symm
    rw [bucketAt_set_ne (Ne.symm hxj)] at hkx hvx
    refine ⟨⟨x, by omega, hkx, hvx⟩, ?_⟩
    rw [← hkx]
    exact huniq x hxN j hj hxj (by rw [hkx]; exact hkk) hocc
  · rintro ⟨⟨x, hx, hkx, hvx⟩, hne⟩
    have hxj : x ≠ j := by
      intro hc
      rw [hc] at hkx
      exact hne hkx.symm
    refine ⟨x, by simpa using hx, ?_, ?_⟩
    · rwa [bucketAt_set_ne (Ne.symm hxj)]
    · rwa [bucketAt_set_ne (Ne.symm hxj)]

/-- Unfolding `robin_table_del` when the key is absent. -/
theorem del_eq_absent {rt : RobinTable} {key : List Nat} (a : Bool)
    (h : robin_table_get_bucket rt key = some none) :
    robin_table_del a rt key = some (rt, 0) := by
  unfold robin_table_del
  rw [h]

/-- Unfolding `robin_table_del` when the key is found in slot `bidx`. -/
theorem del_eq_found {rt : RobinTable} {key : List Nat} {bidx : Nat} (a : Bool)
    (h : robin_table_get_bucket rt key = some (some bidx)) :
    robin_table_del a rt key =
      match robin_table_del_loop rt.mask rt.buckets bidx
          (rt.bucket_count + 1) with
      | none => none
      | some b =>
        let rt1 : RobinTable := { rt with buckets := b, count := rt.count - 1 }
        if rt1.init_buckets < rt1.bucket_count ∧ rt1.count ≤ rt1.shrink_at then
          match robin_table_resize a rt1 (rt1.bucket_count >>> 1) with
          | none => none
          | some none => some (rt1, (bucketAt rt.buckets bidx).val)
          | some (some rt2) => some (rt2, (bucketAt rt.buckets bidx).val)
        else
          some (rt1, (bucketAt rt.buckets bidx).val) := by
  unfold robin_table_del
  rw [h]

/-- `robin_table_resize` with a failed allocation reports failure and makes
no change. -/
theorem resize_false_eq (rt : RobinTable) (bc : Nat) :
    robin_table_resize false rt bc = some none := rfl

/-- `robin_table_del` on an absent key returns 0 and changes nothing. -/
theorem robin_table_del_absent {rt : RobinTable} (h : WFb rt) (a : Bool)
    {key : List Nat} (hkey : key ≠ [])
    (habs : ∀ i, i < rt.bucket_count → (bucketAt rt.buckets i).key ≠ key) :
    robin_table_del a rt key = some (rt, 0) :=
  del_eq_absent a (robin_table_get_bucket_absent h hkey habs)

/-- `robin_table_del` on a stored key returns its value, removes exactly
that binding, decrements the count, preserves well-formedness and, when the
shrink condition holds and allocation succeeds, halves the bucket count. -/
theorem robin_table_del_found {rt : RobinTable} (h : WF rt) (a : Bool)
    {j : Nat} (hj : j < rt.bucket_count)
    (hocc : (bucketAt rt.buckets j).key ≠ []) :
    ∃ rt2, robin_table_del a rt (bucketAt rt.buckets j).key =
        some (rt2, (bucketAt rt.buckets j).val) ∧ WF rt2 ∧
      rt2.count = rt.count - 1 ∧
      rt2.init_buckets = rt.init_buckets ∧
      rt2.seed = rt.seed ∧ rt2.hash_func = rt.hash_func ∧
      rt2.bucket_count = (if rt.init_buckets < rt.bucket_count ∧
          rt.count - 1 ≤ rt.shrink_at ∧ a = true then
        rt.bucket_count >>> 1 else rt.bucket_count) ∧
      (∀ kk vv, kk ≠ [] → (hasKeyVal rt2.buckets kk vv ↔
        (hasKeyVal rt.buckets kk vv ∧
          kk ≠ (bucketAt rt.buckets j).key))) := by
  obtain ⟨hb, hi32, hipow, hile, hexp, hshr⟩ := h
  obtain ⟨hlen, hpow, hmask, hcount, hlt, hpos, hchain, huniq, hhash⟩ := hb
  have hN : 0 < rt.bucket_count := pow2_pos hpow
  have hN4 : 4 ≤ rt.bucket_count := by
    have h32 : (32 : Nat) ≤ rt.init_buckets := hi32
    omega
  have hget : robin_table_get_bucket rt (bucketAt rt.buckets j).key =
      some (some j) :=
    robin_table_get_bucket_found
      ⟨hlen, hpow, hmask, hcount, hlt, hpos, hchain, huniq, hhash⟩ hj hocc
  have hpos' : pslPos (rt.buckets.set j emptyBucket) rt.bucket_count :=
    pslPos_set' hlen hpos (Or.inl rfl)
  have huniq' : uniqKeys (rt.buckets.set j emptyBucket) rt.bucket_count :=
    uniqKeys_set_empty hlen huniq
  have hhash' : hashCached (rt.buckets.set j emptyBucket) rt.bucket_count
      rt.hash_func rt.seed :=
    hashCached_set' hlen hhash (Or.inl rfl)
  have hlocal : ∀ i, i < rt.bucket_count → i ≠ j →
      pairOK (rt.buckets.set j emptyBucket) rt.bucket_count i := by
    intro i hi hij hocc2 hpsl2
    by_cases hc : (i + 1) % rt.bucket_count = j
    · rw [hc, bucketAt_set_self (hlen ▸ hj)] at hocc2
      exact absurd rfl hocc2
    · rw [bucketAt_set_ne (Ne.symm hc)] at hocc2 hpsl2
      obtain ⟨ho, hl⟩ := pairOK_of_chainOK hN hpos hchain hi hocc2 hpsl2
      rw [bucketAt_set_ne (Ne.symm hij), bucketAt_set_ne (Ne.symm hc)]
      exact ⟨ho, hl⟩
  have hnb : ∀ p, (bucketAt (rt.buckets.set j emptyBucket)
        ((j + 1) % rt.bucket_count)).key ≠ [] →
      (bucketAt (rt.buckets.set j emptyBucket)
        ((j + 1) % rt.bucket_count)).psl = p → 2 ≤ p →
      (bucketAt (rt.buckets.set j emptyBucket)
        ((j + (rt.bucket_count - 1)) % rt.bucket_count)).key ≠ [] ∧
      p - 2 ≤ (bucketAt (rt.buckets.set j emptyBucket)
        ((j + (rt.bucket_count - 1)) % rt.bucket_count)).psl := by
    intro p hocc1 hpsl1 h2p
    have hi1 : (j + 1) % rt.bucket_count ≠ j := by
      intro hc
      have h0 : (j + 1) % rt.bucket_count = (j + 0) % rt.bucket_count := by
        rw [hc, Nat.add_zero, Nat.mod_eq_of_lt hj]
      exact absurd (mod_cancel_left (by omega) hN h0) (by omega)
    have him : (j + (rt.bucket_count - 1)) % rt.bucket_count ≠ j := by
      intro hc
      have h0 : (j + (rt.bucket_count - 1)) % rt.bucket_count =
          (j + 0) % rt.bucket_count := by
        rw [hc, Nat.add_zero, Nat.mod_eq_of_lt hj]
      exact absurd (mod_cancel_left (by omega) hN h0) (by omega)
    rw [bucketAt_set_ne (Ne.symm hi1)] at hocc1 hpsl1
    obtain ⟨hoccj', hlej⟩ := pairOK_of_chainOK hN hpos hchain hj hocc1
      (by omega)
    have hpslj : 1 ≤ (bucketAt rt.buckets j).psl := by omega
    have himN : (j + (rt.bucket_count - 1)) % rt.bucket_count <
        rt.bucket_count := Nat.mod_lt _ hN
    have hsucc : ((j + (rt.bucket_count - 1)) % rt.bucket_count + 1) %
        rt.bucket_count = j := by
      have h1 := Nat.mod_add_mod (j + (rt.bucket_count - 1)) rt.bucket_count 1
      have h2 : j + (rt.bucket_count - 1) + 1 = j + rt.bucket_count := by
        omega
      rw [h1, h2, Nat.add_mod_right, Nat.mod_eq_of_lt hj]
    obtain ⟨hoccm, hlem⟩ := pairOK_of_chainOK hN hpos hchain himN
      (by rw [hsucc]; exact hocc) (by rw [hsucc]; exact hpslj)
    rw [hsucc] at hlem
    constructor
    · rw [bucketAt_set_ne (Ne.symm him)]
      exact hoccm
    · rw [bucketAt_set_ne (Ne.symm him)]
      omega
  obtain ⟨jj, hjjN, hjje⟩ := exists_empty_slot hlen (by omega)
  obtain ⟨d, hdN, hde⟩ := exists_dist hN (Nat.le_of_lt hj) hjjN
  have hd1a : 1 ≤ d := by
    rcases Nat.eq_zero_or_pos d with hz | hp
    · subst hz
      rw [Nat.add_zero, Nat.mod_eq_of_lt hj] at hde
      rw [hde] at hocc
      exact absurd hjje hocc
    · exact hp
  have hd1 : (bucketAt rt.buckets ((j + d) % rt.bucket_count)).key = [] := by
    rw [hde]
    exact hjje
  obtain ⟨B2, hrun, hl2, hp2, hc2, hu2, hh2, hcnt2, hmapGhost⟩ :=
    del_loop_ok hpow hN4 (rt.bucket_count + 1) rt.buckets j d hlen hj hpos'
      huniq' hhash' hlocal hnb hd1a hdN hd1 (by omega)
  have hrun2 : robin_table_del_loop rt.mask rt.buckets j
      (rt.bucket_count + 1) = some B2 := by
    rw [hmask]
    exact hrun
  have hGcnt := countOcc_set rt.buckets j emptyBucket (hlen ▸ hj)
  rw [if_neg hocc,
    if_pos (show emptyBucket.key = ([] : List Nat) from rfl)] at hGcnt
  have hone : 0 < countOcc rt.buckets := countOcc_pos (hlen ▸ hj) hocc
  have hwfb1 : WFb { rt with buckets := B2, count := rt.count - 1 } := by
    refine ⟨hl2, hpow, hmask, ?_, ?_, hp2, hc2, hu2, hh2⟩
    · show rt.count - 1 = countOcc B2
      omega
    · show rt.count - 1 < rt.bucket_count
      omega
  have hwf1 : WF { rt with buckets := B2, count := rt.count - 1 } :=
    ⟨hwfb1, hi32, hipow, hile, hexp, hshr⟩
  have hmap1 : ∀ kk vv, kk ≠ [] → (hasKeyVal B2 kk vv ↔
      (hasKeyVal rt.buckets kk vv ∧
        kk ≠ (bucketAt rt.buckets j).key)) := by
    intro kk vv hkk
    exact (hmapGhost kk vv hkk).trans
      (hasKeyVal_erase_iff hlen huniq hj hocc kk vv hkk)
  have hstep := del_eq_found a hget
  rw [hrun2] at hstep
  have hstep2 : robin_table_del a rt (bucketAt rt.buckets j).key =
      (if rt.init_buckets < rt.bucket_count ∧
          rt.count - 1 ≤ rt.shrink_at then
        (match robin_table_resize a
            { rt with buckets := B2, count := rt.count - 1 }
            (rt.bucket_count >>> 1) with
        | none => none
        | some none =>
          some ({ rt with buckets := B2, count := rt.count - 1 },
            (bucketAt rt.buckets j).val)
        | some (some rt2) => some (rt2, (bucketAt rt.buckets j).val))
      else
        some ({ rt with buckets := B2, count := rt.count - 1 },
          (bucketAt rt.buckets j).val)) := hstep.trans rfl
  by_cases hsh : rt.init_buckets < rt.bucket_count ∧
      rt.count - 1 ≤ rt.shrink_at
  · rw [if_pos hsh] at hstep2
    cases a with
    | false =>
      rw [resize_false_eq] at hstep2
      refine ⟨{ rt with buckets := B2, count := rt.count - 1 },
        hstep2.trans rfl, hwf1, rfl, rfl, rfl, rfl, ?_, hmap1⟩
      rw [if_neg (by simp)]
    | true =>
      obtain ⟨hhalfpow, hhalfeq⟩ := pow2_half hpow (by omega)
      have hroom : rt.count - 1 < rt.bucket_count >>> 1 := by
        have hs2 := hsh.2
        have hpct : RT_LOAD_FACTOR_PCT_MIN = 25 := rfl
        rw [hpct] at hshr
        omega
      obtain ⟨rt2, hres, hwfb2, hbc2, hcnt2r, hinit2, hseed2, hhf2, hmask2,
        hexp2, hshr2, hmap2R⟩ :=
        robin_table_resize_ok hwfb1 hhalfpow hroom
      rw [hres] at hstep2
      refine ⟨rt2, hstep2.trans rfl, ?_, ?_, hinit2, hseed2, hhf2, ?_, ?_⟩
      · refine ⟨hwfb2, ?_, ?_, ?_, ?_, ?_⟩
        · rw [hinit2]
          exact hi32
        · rw [hinit2]
          exact hipow
        · rw [hinit2, hbc2]
          show rt.init_buckets ≤ rt.bucket_count >>> 1
          exact pow2_le_half hipow hpow hsh.1
        · rw [hexp2, hbc2]
        · rw [hshr2, hbc2]
      · rw [hcnt2r]
      · rw [hbc2, if_pos ⟨hsh.1, hsh.2, rfl⟩]
      · intro kk vv hkk
        exact (hmap2R kk vv hkk).trans (hmap1 kk vv hkk)
  · rw [if_neg hsh] at hstep2
    refine ⟨{ rt with buckets := B2, count := rt.count - 1 }, hstep2, hwf1,
      rfl, rfl, rfl, rfl, ?_, hmap1⟩
    rw [if_neg (fun hc => hsh ⟨hc.1, hc.2.1⟩)]

/-- Unfolding `robin_table_put` when growth is triggered. -/
theorem put_eq_grow {rt : RobinTable} (a : Bool) (key : List Nat) (v : Nat)
    (h : rt.expand_at ≤ rt.count) :
    robin_table_put a rt key v =
      match robin_table_resize a rt (rt.bucket_count <<< 1) with
      | none => none
      | some none => some (rt, 0)
      | some (some rt1) => robin_table_put0 rt1 key v := by
  unfold robin_table_put
  rw [if_pos h]

/-- Unfolding `robin_table_put` when no growth is needed. -/
theorem put_eq_nogrow {rt : RobinTable} (a : Bool) (key : List Nat) (v : Nat)
    (h : ¬ rt.expand_at ≤ rt.count) :
    robin_table_put a rt key v = robin_table_put0 rt key v := by
  unfold robin_table_put
  rw [if_neg h]

/-- `robin_table_put` that needs to grow but cannot allocate returns the
sentinel 0 and leaves the table untouched. -/
theorem robin_table_put_fail {rt : RobinTable}
    (h : rt.expand_at ≤ rt.count) (key : List Nat) (v : Nat) :
    robin_table_put false rt key v = some (rt, 0) := by
  rw [put_eq_grow false key v h, resize_false_eq]

/-- `robin_table_put` with room (or a successful allocation): it either
inserts a fresh key returning the supplied value, or finds the key already
present, keeps the stored binding, and returns the stored value; it
preserves well-formedness and doubles the bucket count exactly when growth
was triggered. -/
theorem robin_table_put_ok {rt : RobinTable} (h : WF rt) (a : Bool)
    {key : List Nat} (hkey : key ≠ []) (v : Nat)
    (ha : rt.count < rt.expand_at ∨ a = true) :
    ∃ rt2 r, robin_table_put a rt key v = some (rt2, r) ∧ WF rt2 ∧
      rt2.init_buckets = rt.init_buckets ∧
      rt2.seed = rt.seed ∧ rt2.hash_func = rt.hash_func ∧
      rt2.bucket_count = (if rt.expand_at ≤ rt.count then
        rt.bucket_count <<< 1 else rt.bucket_count) ∧
      ((¬ hasKey rt.buckets key ∧ r = v ∧ rt2.count = rt.count + 1 ∧
        (∀ kk vv, kk ≠ [] → (hasKeyVal rt2.buckets kk vv ↔
          (hasKeyVal rt.buckets kk vv ∨ (kk = key ∧ vv = v))))) ∨
       (hasKeyVal rt.buckets key r ∧ rt2.count = rt.count ∧
        (∀ kk vv, kk ≠ [] → (hasKeyVal rt2.buckets kk vv ↔
          hasKeyVal rt.buckets kk vv)))) := by
  obtain ⟨hb, hi32, hipow, hile, hexp, hshr⟩ := h
  have hwfb : WFb rt := hb
  obtain ⟨hlen, hpow, hmask, hcount, hlt, hpos, hchain, huniq, hhash⟩ := hb
  have hsl : rt.bucket_count <<< 1 = 2 * rt.bucket_count := by
    rw [Nat.shiftLeft_eq, pow_one]
    ring
  by_cases hg : rt.expand_at ≤ rt.count
  · have ha' : a = true := by
      rcases ha with hlt2 | ha'
      · exact absurd hlt2 (by omega)
      · exact ha'
    subst ha'
    have hstep := put_eq_grow true key v hg
    obtain ⟨rt1, hres, hwfb1, hbc1, hcnt1, hinit1, hseed1, hhf1, hmask1,
      hexp1, hshr1, hmap1⟩ :=
      robin_table_resize_ok hwfb (pow2_shiftLeft hpow) (by omega)
    rw [hres] at hstep
    have hstep2 : robin_table_put true rt key v =
        robin_table_put0 rt1 key v := hstep.trans rfl
    have hwf1 : WF rt1 := by
      refine ⟨hwfb1, ?_, ?_, ?_, ?_, ?_⟩
      · rw [hinit1]
        exact hi32
      · rw [hinit1]
        exact hipow
      · rw [hinit1, hbc1]
        exact hile.trans (by omega)
      · rw [hexp1, hbc1]
      · rw [hshr1, hbc1]
    have hl1 : rt1.buckets.length = rt1.bucket_count := hwfb1.1
    by_cases hk : hasKey rt.buckets key
    · obtain ⟨vv, hkv⟩ := hasKey_iff.mp hk
      obtain ⟨i, hi, hkeq, hveq⟩ := (hmap1 key vv hkey).mpr hkv
      have hiN : i < rt1.bucket_count := hl1 ▸ hi
      have hput := robin_table_put0_dup hwfb1 hiN hkeq hkey v
      refine ⟨rt1, (bucketAt rt1.buckets i).val, hstep2.trans hput, hwf1,
        hinit1, hseed1, hhf1, ?_, Or.inr ⟨?_, hcnt1, fun kk vv2 hkk =>
          hmap1 kk vv2 hkk⟩⟩
      · rw [if_pos hg, hbc1]
      · exact (hmap1 key (bucketAt rt1.buckets i).val hkey).mp
          ⟨i, hi, hkeq, rfl⟩
    · have habs1 : ∀ i, i < rt1.bucket_count →
          (bucketAt rt1.buckets i).key ≠ key := by
        intro i hi hc
        have hkv1 : hasKeyVal rt1.buckets key (bucketAt rt1.buckets i).val :=
          ⟨i, hl1 ▸ hi, hc, rfl⟩
        have hkv := (hmap1 key _ hkey).mp hkv1
        exact hk ⟨hkv.choose, hkv.choose_spec.1, hkv.choose_spec.2.1⟩
      have hroom1 : rt1.count + 1 < rt1.bucket_count := by
        rw [hcnt1, hbc1]
        omega
      obtain ⟨rt2, hput, hwfb2, hcnt2, hbc2, hinit2, hmask2, hexp2, hshr2,
        hseed2, hhf2, hmap2⟩ :=
        robin_table_put0_fresh hwfb1 hroom1 hkey habs1 v
      refine ⟨rt2, v, hstep2.trans hput, ?_, hinit2.trans hinit1,
        hseed2.trans hseed1, hhf2.trans hhf1, ?_,
        Or.inl ⟨hk, rfl, by rw [hcnt2, hcnt1], ?_⟩⟩
      · refine ⟨hwfb2, ?_, ?_, ?_, ?_, ?_⟩
        · rw [hinit2, hinit1]
          exact hi32
        · rw [hinit2, hinit1]
          exact hipow
        · rw [hinit2, hinit1, hbc2, hbc1]
          exact hile.trans (by omega)
        · rw [hexp2, hexp1, hbc2, hbc1]
        · rw [hshr2, hshr1, hbc2, hbc1]
      · rw [if_pos hg, hbc2, hbc1]
      · intro kk vv2 hkk
        exact (hmap2 kk vv2 hkk).trans (or_congr (hmap1 kk vv2 hkk) Iff.rfl)
  · have hstep2 := put_eq_nogrow a key v hg
    have hwf0 : WF rt := ⟨hwfb, hi32, hipow, hile, hexp, hshr⟩
    by_cases hk : hasKey rt.buckets key
    · obtain ⟨i, hi, hkeq⟩ := hk
      have hiN : i < rt.bucket_count := hlen ▸ hi
      have hput := robin_table_put0_dup hwfb hiN hkeq hkey v
      exact ⟨rt, (bucketAt rt.buckets i).val, hstep2.trans hput, hwf0, rfl,
        rfl, rfl, by rw [if_neg hg], Or.inr ⟨⟨i, hi, hkeq, rfl⟩, rfl,
          fun _ _ _ => Iff.rfl⟩⟩
    · have habs : ∀ i, i < rt.bucket_count →
          (bucketAt rt.buckets i).key ≠ key := by
        intro i hi hc
        exact hk ⟨i, hlen ▸ hi, hc⟩
      have hroom : rt.count + 1 < rt.bucket_count := by
        have hpct : RT_LOAD_FACTOR_PCT_MAX = 75 := rfl
        rw [hpct] at hexp
        have h32 : (32 : Nat) ≤ rt.init_buckets := hi32
        omega
      obtain ⟨rt2, hput, hwfb2, hcnt2, hbc2, hinit2, hmask2, hexp2, hshr2,
        hseed2, hhf2, hmap2⟩ :=
        robin_table_put0_fresh hwfb hroom hkey habs v
      refine ⟨rt2, v, hstep2.trans hput, ?_, hinit2, hseed2, hhf2,
        by rw [if_neg hg, hbc2], Or.inl ⟨hk, rfl, hcnt2, hmap2⟩⟩
      refine ⟨hwfb2, ?_, ?_, ?_, ?_, ?_⟩
      · rw [hinit2]
        exact hi32
      · rw [hinit2]
        exact hipow
      · rw [hinit2, hbc2]
        exact hile
      · rw [hexp2, hbc2]
        exact hexp
      · rw [hshr2, hbc2]
        exact hshr

/-- `robin_table_clear` empties the table; with `update_buckets` it also
shrinks the array back to the initial bucket count. -/
theorem robin_table_clear_ok {rt : RobinTable} (h : WF rt) (a u : Bool)
    (hau : u = true → a = true) :
    ∃ rt2, robin_table_clear a rt u = some rt2 ∧ WF rt2 ∧ rt2.count = 0 ∧
      rt2.init_buckets = rt.init_buckets ∧ rt2.seed = rt.seed ∧
      rt2.hash_func = rt.hash_func ∧
      rt2.bucket_count = (if u then rt.init_buckets else rt.bucket_count) ∧
      (∀ kk vv, kk ≠ [] → ¬ hasKeyVal rt2.buckets kk vv) := by
  obtain ⟨hb, hi32, hipow, hile, hexp, hshr⟩ := h
  obtain ⟨hlen, hpow, hmask, hcount, hlt, hpos, hchain, huniq, hhash⟩ := hb
  cases u with
  | true =>
    have ha : a = true := hau rfl
    subst ha
    refine ⟨{ rt with
        buckets := List.replicate rt.init_buckets emptyBucket
        count := 0
        bucket_count := rt.init_buckets
        mask := rt.init_buckets - 1
        expand_at := rt.init_buckets * RT_LOAD_FACTOR_PCT_MAX / 100
        shrink_at := rt.init_buckets * RT_LOAD_FACTOR_PCT_MIN / 100 },
      rfl, ?_, rfl, rfl, rfl, rfl, rfl, ?_⟩
    · exact ⟨WFb_of_empty rfl rfl hipow rfl, hi32, hipow, Nat.le_refl _,
        rfl, rfl⟩
    · intro kk vv hkk
      exact hasKeyVal_replicate hkk
  | false =>
    refine ⟨{ rt with
        count := 0
        buckets := List.replicate rt.bucket_count emptyBucket },
      rfl, ?_, rfl, rfl, rfl, rfl, rfl, ?_⟩
    · exact ⟨WFb_of_empty rfl rfl hpow hmask, hi32, hipow, hile, hexp, hshr⟩
    · intro kk vv hkk
      exact hasKeyVal_replicate hkk

/-- `robin_table_get` returns the stored value of a slot's key. -/
theorem robin_table_get_found {rt : RobinTable} (h : WFb rt) {j : Nat}
    (hj : j < rt.bucket_count) (hocc : (bucketAt rt.buckets j).key ≠ []) :
    robin_table_get rt (bucketAt rt.buckets j).key =
      some (bucketAt rt.buckets j).val := by
  unfold robin_table_get
  rw [robin_table_get_bucket_found h hj hocc]

/-- `robin_table_get` returns NULL (0) for an absent key. -/
theorem robin_table_get_absent {rt : RobinTable} (h : WFb rt)
    {key : List Nat} (hkey : key ≠ [])
    (habs : ∀ i, i < rt.bucket_count → (bucketAt rt.buckets i).key ≠ key) :
    robin_table_get rt key = some 0 := by
  unfold robin_table_get
  rw [robin_table_get_bucket_absent h hkey habs]

/-- `robin_table_get` on a stored binding returns the bound value. -/
theorem robin_table_get_hasKeyVal {rt : RobinTable} (h : WFb rt)
    {key : List Nat} (hkey : key ≠ []) {v : Nat}
    (hkv : hasKeyVal rt.buckets key v) : robin_table_get rt key = some v := by
  obtain ⟨i, hi, hkeq, hveq⟩ := hkv
  have hiN : i < rt.bucket_count := h.1 ▸ hi
  have hocc : (bucketAt rt.buckets i).key ≠ [] := by
    rw [hkeq]
    exact hkey
  have hget := robin_table_get_found h hiN hocc
  rw [hkeq, hveq] at hget
  exact hget

/-- `robin_table_get` on a key held by no slot returns NULL (0). -/
theorem robin_table_get_not_hasKey {rt : RobinTable} (h : WFb rt)
    {key : List Nat} (hkey : key ≠ []) (hk : ¬ hasKey rt.buckets key) :
    robin_table_get rt key = some 0 :=
  robin_table_get_absent h hkey (fun i hi hc => hk ⟨i, h.1 ▸ hi, hc⟩)

/-- In a table with unique keys, the value stored under a key is unique. -/
theorem hasKeyVal_unique {B : List Bucket} {N : Nat} (hlen : B.length = N)
    (huniq : uniqKeys B N) {key : List Nat} (hkey : key ≠ []) {v1 v2 : Nat}
    (h1 : hasKeyVal B key v1) (h2 : hasKeyVal B key v2) : v1 = v2 := by
  obtain ⟨i, hi, hki, hvi⟩ := h1
  obtain ⟨j, hj, hkj, hvj⟩ := h2
  by_cases hij : i = j
  · subst hij
    rw [← hvi, ← hvj]
  · exact absurd (hki.trans hkj.symm)
      (huniq i (hlen ▸ hi) j (hlen ▸ hj) hij (by rw [hki]; exact hkey)
        (by rw [hkj]; exact hkey))

theorem applyOp_put_eq {rt rt2 : RobinTable} {a : Bool} {k2 : List Nat}
    {v2 r : Nat} (hk2 : k2 ≠ [])
    (hput : robin_table_put a rt k2 v2 = some (rt2, r)) :
    applyOp rt (TableOp.put a k2 v2) = rt2 := by
  simp [applyOp, hput, hk2]

theorem applyOp_del_eq {rt rt2 : RobinTable} {a : Bool} {k2 : List Nat}
    {r : Nat} (hk2 : k2 ≠ [])
    (hdel : robin_table_del a rt k2 = some (rt2, r)) :
    applyOp rt (TableOp.del a k2) = rt2 := by
  simp [applyOp, hdel, hk2]

theorem applyOp_clear_eq {rt rt2 : RobinTable} {a u : Bool}
    (hclear : robin_table_clear a rt u = some rt2) :
    applyOp rt (TableOp.clear a u) = rt2 := by
  simp [applyOp, hclear]

theorem applyOp_clear_none {rt : RobinTable} {a u : Bool}
    (hclear : robin_table_clear a rt u = none) :
    applyOp rt (TableOp.clear a u) = rt := by
  simp [applyOp, hclear]

theorem applyOps_cons (op : TableOp) (ops : List TableOp) (rt : RobinTable) :
    applyOps (op :: ops) rt = applyOps ops (applyOp rt op) := rfl

/-- One public operation preserves full well-formedness, the initial bucket
count, the seed and the hash strategy, and keeps every binding whose key the
operation avoids. -/
theorem applyOp_props {rt : RobinTable} (h : WF rt) (op : TableOp) :
    WF (applyOp rt op) ∧
    (applyOp rt op).init_buckets = rt.init_buckets ∧
    (applyOp rt op).seed = rt.seed ∧
    (applyOp rt op).hash_func = rt.hash_func ∧
    (∀ k v, k ≠ [] → avoidsKey k op → hasKeyVal rt.buckets k v →
      hasKeyVal (applyOp rt op).buckets k v) := by
  cases op with
  | put a k2 v2 =>
    by_cases hk2 : k2 = []
    · subst hk2
      exact ⟨h, rfl, rfl, rfl, fun _ _ _ _ hkv => hkv⟩
    · by_cases hok : rt.count < rt.expand_at ∨ a = true
      · obtain ⟨rt2, r, hput, hwf2, hinit2, hseed2, hhf2, hbc2, hcase⟩ :=
          robin_table_put_ok h a hk2 v2 hok
        rw [applyOp_put_eq hk2 hput]
        refine ⟨hwf2, hinit2, hseed2, hhf2, ?_⟩
        intro k v hk hav hkv
        rcases hcase with ⟨_, _, _, hmap⟩ | ⟨_, _, hmap⟩
        · exact (hmap k v hk).mpr (Or.inl hkv)
        · exact (hmap k v hk).mpr hkv
      · push_neg at hok
        have ha : a = false := by
          cases a with
          | false => rfl
          | true => exact absurd rfl hok.2
        subst ha
        have hge : rt.expand_at ≤ rt.count := hok.1
        have hput := robin_table_put_fail hge k2 v2
        rw [applyOp_put_eq hk2 hput]
        exact ⟨h, rfl, rfl, rfl, fun _ _ _ _ hkv => hkv⟩
  | get k =>
    exact ⟨h, rfl, rfl, rfl, fun _ _ _ _ hkv => hkv⟩
  | del a k2 =>
    by_cases hk2 : k2 = []
    · subst hk2
      exact ⟨h, rfl, rfl, rfl, fun _ _ _ _ hkv => hkv⟩
    · by_cases hk : hasKey rt.buckets k2
      · obtain ⟨j, hj, hkeq⟩ := hk
        have hocc : (bucketAt rt.buckets j).key ≠ [] := by
          rw [hkeq]
          exact hk2
        obtain ⟨rt2, hdel, hwf2, hcnt2, hinit2, hseed2, hhf2, hbc2, hmap2⟩ :=
          robin_table_del_found h a (h.1.1 ▸ hj) hocc
        rw [hkeq] at hdel
        rw [applyOp_del_eq hk2 hdel]
        refine ⟨hwf2, hinit2, hseed2, hhf2, ?_⟩
        intro k v hkne hav hkv
        refine (hmap2 k v hkne).mpr ⟨hkv, ?_⟩
        rw [hkeq]
        exact Ne.symm hav
      · have habs : ∀ i, i < rt.bucket_count →
            (bucketAt rt.buckets i).key ≠ k2 := by
          intro i hi hc
          exact hk ⟨i, h.1.1 ▸ hi, hc⟩
        have hdel := robin_table_del_absent h.1 a hk2 habs
        rw [applyOp_del_eq hk2 hdel]
        exact ⟨h, rfl, rfl, rfl, fun _ _ _ _ hkv => hkv⟩
  | clear a u =>
    cases u with
    | true =>
      cases a with
      | false =>
        rw [applyOp_clear_none
          (show robin_table_clear false rt true = none from rfl)]
        exact ⟨h, rfl, rfl, rfl, fun _ _ _ hav _ => hav.elim⟩
      | true =>
        obtain ⟨rt2, hclear, hwf2, hcnt2, hinit2, hseed2, hhf2, hbc2,
          hemp2⟩ := robin_table_clear_ok h true true (fun _ => rfl)
        rw [applyOp_clear_eq hclear]
        exact ⟨hwf2, hinit2, hseed2, hhf2, fun _ _ _ hav _ => hav.elim⟩
    | false =>
      obtain ⟨rt2, hclear, hwf2, hcnt2, hinit2, hseed2, hhf2, hbc2,
        hemp2⟩ := robin_table_clear_ok h a false (fun hc => nomatch hc)
      rw [applyOp_clear_eq hclear]
      exact ⟨hwf2, hinit2, hseed2, hhf2, fun _ _ _ hav _ => hav.elim⟩

/-- A sequence of public operations preserves well-formedness, the initial
bucket count, the seed and the hash strategy, and keeps every binding whose
key all the operations avoid. -/
theorem applyOps_props (ops : List TableOp) :
    ∀ {rt : RobinTable}, WF rt →
    WF (applyOps ops rt) ∧
    (applyOps ops rt).init_buckets = rt.init_buckets ∧
    (applyOps ops rt).seed = rt.seed ∧
    (applyOps ops rt).hash_func = rt.hash_func ∧
    (∀ k v, k ≠ [] → (∀ op ∈ ops, avoidsKey k op) →
      hasKeyVal rt.buckets k v →
      hasKeyVal (applyOps ops rt).buckets k v) := by
  induction ops with
  | nil =>
    intro rt h
    exact ⟨h, rfl, rfl, rfl, fun _ _ _ _ hkv => hkv⟩
  | cons op ops ih =>
    intro rt h
    have h1 := applyOp_props h op
    have h2 := ih h1.1
    rw [applyOps_cons]
    refine ⟨h2.1, h2.2.1.trans h1.2.1, h2.2.2.1.trans h1.2.2.1,
      h2.2.2.2.1.trans h1.2.2.2.1, ?_⟩
    intro k v hk hops hkv
    exact h2.2.2.2.2 k v hk (fun o ho => hops o (List.mem_cons_of_mem _ ho))
      (h1.2.2.2.2 k v hk (hops op (List.mem_cons_self _ _)) hkv)

/-- Two simulation-related tables answer every lookup identically. -/
theorem simR_get {rt rt' : RobinTable} (h : SimR rt rt') {k : List Nat}
    (hk : k ≠ []) : robin_table_get rt k = robin_table_get rt' k := by
  obtain ⟨hw, hw', hcnt, hbc, hinit, hmap⟩ := h
  by_cases hkk : hasKey rt.buckets k
  · obtain ⟨vv, hv⟩ := hasKey_iff.mp hkk
    rw [robin_table_get_hasKeyVal hw.1 hk hv,
      robin_table_get_hasKeyVal hw'.1 hk ((hmap k vv hk).mp hv)]
  · have hkk' : ¬ hasKey rt'.buckets k := by
      intro hc
      obtain ⟨vv, hv⟩ := hasKey_iff.mp hc
      exact hkk (hasKey_iff.mpr ⟨vv, (hmap k vv hk).mpr hv⟩)
    rw [robin_table_get_not_hasKey hw.1 hk hkk,
      robin_table_get_not_hasKey hw'.1 hk hkk']

/-- One public operation preserves the simulation relation. -/
theorem simR_applyOp {rt rt' : RobinTable} (h : SimR rt rt') (op : TableOp) :
    SimR (applyOp rt op) (applyOp rt' op) := by
  obtain ⟨hw, hw', hcnt, hbc, hinit, hmap⟩ := h
  cases op with
  | put a k2 v2 =>
    by_cases hk2 : k2 = []
    · subst hk2
      exact ⟨hw, hw', hcnt, hbc, hinit, hmap⟩
    · have hexp_eq : rt.expand_at = rt'.expand_at := by
        rw [hw.2.2.2.2.1, hw'.2.2.2.2.1, hbc]
      by_cases hok : rt.count < rt.expand_at ∨ a = true
      · have hok' : rt'.count < rt'.expand_at ∨ a = true := by
          rcases hok with h1 | h2
          · left
            omega
          · right
            exact h2
        obtain ⟨rt2, r, hput, hwf2, hinit2, hseed2, hhf2, hbc2, hcase⟩ :=
          robin_table_put_ok hw a hk2 v2 hok
        obtain ⟨rt2', r', hput', hwf2', hinit2', hseed2', hhf2', hbc2',
          hcase'⟩ := robin_table_put_ok hw' a hk2 v2 hok'
        rw [applyOp_put_eq hk2 hput, applyOp_put_eq hk2 hput']
        have hbceq : rt2.bucket_count = rt2'.bucket_count := by
          rw [hbc2, hbc2', hbc, hcnt, hexp_eq]
        have hiniteq : rt2.init_buckets = rt2'.init_buckets := by
          rw [hinit2, hinit2', hinit]
        rcases hcase with ⟨hno, hrv, hc2, hm2⟩ | ⟨hkv, hc2, hm2⟩ <;>
          rcases hcase' with ⟨hno', hrv', hc2', hm2'⟩ | ⟨hkv', hc2', hm2'⟩
        · refine ⟨hwf2, hwf2', by rw [hc2, hc2', hcnt], hbceq, hiniteq, ?_⟩
          intro kk vv hkk
          exact ((hm2 kk vv hkk).trans
            (or_congr (hmap kk vv hkk) Iff.rfl)).trans (hm2' kk vv hkk).symm
        · exact absurd (hasKey_iff.mpr ⟨r', (hmap k2 r' hk2).mpr hkv'⟩) hno
        · exact absurd (hasKey_iff.mpr ⟨r, (hmap k2 r hk2).mp hkv⟩) hno'
        · refine ⟨hwf2, hwf2', by rw [hc2, hc2', hcnt], hbceq, hiniteq, ?_⟩
          intro kk vv hkk
          exact ((hm2 kk vv hkk).trans (hmap kk vv hkk)).trans
            (hm2' kk vv hkk).symm
      · push_neg at hok
        have ha : a = false := by
          cases a with
          | false => rfl
          | true => exact absurd rfl hok.2
        subst ha
        have hge : rt.expand_at ≤ rt.count := hok.1
        have hge' : rt'.expand_at ≤ rt'.count := by omega
        rw [applyOp_put_eq hk2 (robin_table_put_fail hge k2 v2),
          applyOp_put_eq hk2 (robin_table_put_fail hge' k2 v2)]
        exact ⟨hw, hw', hcnt, hbc, hinit, hmap⟩
  | get k =>
    exact ⟨hw, hw', hcnt, hbc, hinit, hmap⟩
  | del a k2 =>
    by_cases hk2 : k2 = []
    · subst hk2
      exact ⟨hw, hw', hcnt, hbc, hinit, hmap⟩
    · have hshr_eq : rt.shrink_at = rt'.shrink_at := by
        rw [hw.2.2.2.2.2, hw'.2.2.2.2.2, hbc]
      by_cases hk : hasKey rt.buckets k2
      · obtain ⟨j, hj, hkeq⟩ := hk
        have hocc : (bucketAt rt.buckets j).key ≠ [] := by
          rw [hkeq]
          exact hk2
        obtain ⟨rt2, hdel, hwf2, hcnt2, hinit2, hseed2, hhf2, hbc2, hmap2⟩ :=
          robin_table_del_found hw a (hw.1.1 ▸ hj) hocc
        rw [hkeq] at hdel hmap2
        obtain ⟨vv0, hv0⟩ := hasKey_iff.mp ⟨j, hj, hkeq⟩
        obtain ⟨j', hj', hkeq'⟩ := hasKey_iff.mpr ⟨vv0, (hmap k2 vv0 hk2).mp hv0⟩
        have hocc' : (bucketAt rt'.buckets j').key ≠ [] := by
          rw [hkeq']
          exact hk2
        obtain ⟨rt2', hdel', hwf2', hcnt2', hinit2', hseed2', hhf2', hbc2',
          hmap2'⟩ := robin_table_del_found hw' a (hw'.1.1 ▸ hj') hocc'
        rw [hkeq'] at hdel' hmap2'
        rw [applyOp_del_eq hk2 hdel, applyOp_del_eq hk2 hdel']
        refine ⟨hwf2, hwf2', by rw [hcnt2, hcnt2', hcnt], ?_,
          by rw [hinit2, hinit2', hinit], ?_⟩
        · rw [hbc2, hbc2', hbc, hcnt, hinit, hshr_eq]
        · intro kk vv hkk
          exact ((hmap2 kk vv hkk).trans
            (and_congr (hmap kk vv hkk) Iff.rfl)).trans
            (hmap2' kk vv hkk).symm
      · have hk' : ¬ hasKey rt'.buckets k2 := by
          intro hc
          obtain ⟨vv, hv⟩ := hasKey_iff.mp hc
          exact hk (hasKey_iff.mpr ⟨vv, (hmap k2 vv hk2).mpr hv⟩)
        have habs : ∀ i, i < rt.bucket_count →
            (bucketAt rt.buckets i).key ≠ k2 :=
          fun i hi hc => hk ⟨i, hw.1.1 ▸ hi, hc⟩
        have habs' : ∀ i, i < rt'.bucket_count →
            (bucketAt rt'.buckets i).key ≠ k2 :=
          fun i hi hc => hk' ⟨i, hw'.1.1 ▸ hi, hc⟩
        rw [applyOp_del_eq hk2 (robin_table_del_absent hw.1 a hk2 habs),
          applyOp_del_eq hk2 (robin_table_del_absent hw'.1 a hk2 habs')]
        exact ⟨hw, hw', hcnt, hbc, hinit, hmap⟩
  | clear a u =>
    cases u with
    | true =>
      cases a with
      | false =>
        rw [applyOp_clear_none
            (show robin_table_clear false rt true = none from rfl),
          applyOp_clear_none
            (show robin_table_clear false rt' true = none from rfl)]
        exact ⟨hw, hw', hcnt, hbc, hinit, hmap⟩
      | true =>
        obtain ⟨rt2, hclear, hwf2, hcnt2, hinit2, hseed2, hhf2, hbc2,
          hemp2⟩ := robin_table_clear_ok hw true true (fun _ => rfl)
        obtain ⟨rt2', hclear', hwf2', hcnt2', hinit2', hseed2', hhf2', hbc2',
          hemp2'⟩ := robin_table_clear_ok hw' true true (fun _ => rfl)
        rw [applyOp_clear_eq hclear, applyOp_clear_eq hclear']
        refine ⟨hwf2, hwf2', by rw [hcnt2, hcnt2'], ?_,
          by rw [hinit2, hinit2', hinit], ?_⟩
        · rw [hbc2, hbc2', hinit]
          rfl
        · intro kk vv hkk
          exact iff_of_false (hemp2 kk vv hkk) (hemp2' kk vv hkk)
    | false =>
      obtain ⟨rt2, hclear, hwf2, hcnt2, hinit2, hseed2, hhf2, hbc2,
        hemp2⟩ := robin_table_clear_ok hw a false (fun hc => nomatch hc)
      obtain ⟨rt2', hclear', hwf2', hcnt2', hinit2', hseed2', hhf2', hbc2',
        hemp2'⟩ := robin_table_clear_ok hw' a false (fun hc => nomatch hc)
      rw [applyOp_clear_eq hclear, applyOp_clear_eq hclear']
      refine ⟨hwf2, hwf2', by rw [hcnt2, hcnt2'], ?_,
        by rw [hinit2, hinit2', hinit], ?_⟩
      · rw [hbc2, hbc2', hbc]
        rfl
      · intro kk vv hkk
        exact iff_of_false (hemp2 kk vv hkk) (hemp2' kk vv hkk)

/-- A sequence of public operations preserves the simulation relation. -/
theorem simR_applyOps (ops : List TableOp) :
    ∀ {rt rt' : RobinTable}, SimR rt rt' →
    SimR (applyOps ops rt) (applyOps ops rt') := by
  induction ops with
  | nil =>
    intro rt rt' h
    exact h
  | cons op ops ih =>
    intro rt rt' h
    rw [applyOps_cons, applyOps_cons]
    exact ih (simR_applyOp h op)

/-- Two freshly created tables with the same expected count are
simulation-related whatever hash strategies and seeds are injected. -/
theorem simR_create (n : Nat) (hf hf' : List Nat → Nat → Nat) (s s' : Nat) :
    SimR (robin_table_create n hf s) (robin_table_create n hf' s') := by
  obtain ⟨hw, hcnt, hbc, hinit, hemp⟩ := robin_table_create_wf n hf s
  obtain ⟨hw', hcnt', hbc', hinit', hemp'⟩ := robin_table_create_wf n hf' s'
  refine ⟨hw, hw', by rw [hcnt, hcnt'], by rw [hbc, hbc'],
    by rw [hinit, hinit'], ?_⟩
  intro kk vv hkk
  exact iff_of_false (hemp kk vv hkk) (hemp' kk vv hkk)

theorem backward_shift_spec_succ (N : Nat) (B : List Bucket)
    (freed cnt fuel : Nat) :
    backward_shift_spec N B freed cnt (fuel + 1) =
      if (bucketAt B ((freed + 1) % N)).key = [] ∨
          (bucketAt B ((freed + 1) % N)).psl = 0 then
        some (B.set freed emptyBucket, cnt - 1)
      else
        backward_shift_spec N
          (B.set freed { bucketAt B ((freed + 1) % N) with
            psl := (bucketAt B ((freed + 1) % N)).psl - 1 })
          ((freed + 1) % N) cnt fuel := rfl

/-- The deletion loop of the source refines the spec's backward shift: run
from the same freed slot on arrays that agree everywhere except that slot,
both either exhaust their fuel together or stop together, and when they stop
the resulting arrays agree at every index and the spec decrements the entry
count by one. -/
theorem del_loop_refines {N : Nat} (hpow : N = 2 ^ Nat.log2 N) (hN2 : 2 ≤ N)
    (cnt : Nat) :
    ∀ (fuel : Nat) (B1 B2 : List Bucket) (hole : Nat), hole < N →
      B1.length = N → B2.length = N →
      (∀ x, x < N → x ≠ hole → bucketAt B1 x = bucketAt B2 x) →
      ((robin_table_del_loop (N - 1) B1 hole fuel = none ∧
        backward_shift_spec N B2 hole cnt fuel = none) ∨
       (∃ B1' B2', robin_table_del_loop (N - 1) B1 hole fuel = some B1' ∧
        backward_shift_spec N B2 hole cnt fuel = some (B2', cnt - 1) ∧
        ∀ x, x < N → bucketAt B1' x = bucketAt B2' x)) := by
  have hmask : ∀ x : Nat, x &&& (N - 1) = x % N := land_mask hpow
  have hN : 0 < N := by omega
  intro fuel
  induction fuel with
  | zero =>
    intro B1 B2 hole _ _ _ _
    left
    exact ⟨rfl, rfl⟩
  | succ fuel ih =>
    intro B1 B2 hole hhole hl1 hl2 hagree
    have hidx : (hole + 1) &&& (N - 1) = (hole + 1) % N := hmask _
    have hiN : (hole + 1) % N < N := Nat.mod_lt _ hN
    have hih : (hole + 1) % N ≠ hole := by
      intro hc
      have h0 : (hole + 1) % N = (hole + 0) % N := by
        rw [hc, Nat.add_zero, Nat.mod_eq_of_lt hhole]
      exact absurd (mod_cancel_left (by omega) hN h0) (by omega)
    have hslot : bucketAt B1 ((hole + 1) % N) =
        bucketAt B2 ((hole + 1) % N) := hagree _ hiN hih
    rw [del_loop_succ, hidx, backward_shift_spec_succ, hslot]
    by_cases hstop : (bucketAt B2 ((hole + 1) % N)).key = [] ∨
        (bucketAt B2 ((hole + 1) % N)).psl = 0
    · rw [if_pos hstop, if_pos hstop]
      right
      refine ⟨B1.set hole emptyBucket, B2.set hole emptyBucket, rfl, rfl, ?_⟩
      intro x hx
      by_cases hxh : x = hole
      · subst hxh
        rw [bucketAt_set_self (hl1 ▸ hhole), bucketAt_set_self (hl2 ▸ hhole)]
      · rw [bucketAt_set_ne (Ne.symm hxh), bucketAt_set_ne (Ne.symm hxh)]
        exact hagree x hx hxh
    · rw [if_neg hstop, if_neg hstop]
      apply ih
      · exact hiN
      · simp [hl1]
      · simp [hl2]
      · intro x hx hxi
        by_cases hxh : x = hole
        · subst hxh
          rw [bucketAt_set_self (by simp [hl1, hhole]),
            bucketAt_set_self (hl2 ▸ hhole)]
        · rw [bucketAt_set_ne (Ne.symm hxh), bucketAt_set_ne (Ne.symm hxi),
            bucketAt_set_ne (Ne.symm hxh)]
          exact hagree x hx hxh

/-- The least power of two at or above 32 is 32 itself. -/
theorem pow_clog_32 : 2 ^ Nat.clog 2 32 = 32 := by
  have h1 : Nat.clog 2 32 ≤ 5 :=
    (Nat.le_pow_iff_clog_le (by norm_num)).mp (by norm_num)
  have h2 : (32 : Nat) ≤ 2 ^ Nat.clog 2 32 := Nat.le_pow_clog (by norm_num) _
  have h3 : 2 ^ Nat.clog 2 32 ≤ 2 ^ 5 :=
    Nat.pow_le_pow_right (by norm_num) h1
  have h4 : (2 : Nat) ^ 5 = 32 := by norm_num
  omega

/-- When the load-scaled count does not divide evenly, its floor quotient is
never a power of two at or above 32, so floor and ceiling round up to the
same power of two. -/
theorem floor_not_pow2 {n L : Nat} (hdvd : n * 100 % 75 ≠ 0)
    (h32 : 32 ≤ n * 100 / 75) (hL : n * 100 / 75 = 2 ^ L) : False := by
  have hL5 : 5 ≤ L := by
    by_contra hc
    have hle : L ≤ 4 := by omega
    have : (2 : Nat) ^ L ≤ 2 ^ 4 := Nat.pow_le_pow_right (by norm_num) hle
    have h16 : (2 : Nat) ^ 4 = 16 := by norm_num
    omega
  have hfac : (2 : Nat) ^ L = 2 ^ 2 * 2 ^ (L - 2) := by
    rw [← pow_add]
    congr 1
    omega
  have h4 : (2 : Nat) ^ 2 = 4 := by norm_num
  omega

/-- The source's bucket-count policy coincides with the spec's
`target_capacity` (floor versus ceiling rounding never changes the chosen
power of two) whenever `count * 100` does not overflow `size_t`. -/
theorem calc_eq_target {n : Nat} (hn : n * 100 < 2 ^ 64) :
    robin_table_calc_bucket_count n = target_capacity n := by
  unfold robin_table_calc_bucket_count target_capacity
  unfold RT_LOAD_FACTOR_PCT_MAX RT_BUCKET_COUNT_MIN
  rw [Nat.mod_eq_of_lt hn]
  by_cases hdvd : n * 100 % 75 = 0
  · have hcf : (n * 100 + (75 - 1)) / 75 = n * 100 / 75 := by omega
    rw [hcf]
    by_cases h32 : n * 100 / 75 < 32
    · rw [if_pos h32, if_pos h32]
    · rw [if_neg h32, if_neg h32]
      push_neg at h32
      rw [next_pow2_eq_pow (by omega) (by omega)]
      exact size_pred_eq_clog (by omega)
  · have hcf : (n * 100 + (75 - 1)) / 75 = n * 100 / 75 + 1 := by omega
    rw [hcf]
    by_cases h32 : n * 100 / 75 < 32
    · rw [if_pos h32]
      by_cases h32c : n * 100 / 75 + 1 < 32
      · rw [if_pos h32c]
      · rw [if_neg h32c]
        have hc32 : n * 100 / 75 + 1 = 32 := by omega
        rw [hc32, pow_clog_32]
    · rw [if_neg h32, if_neg (by omega)]
      push_neg at h32
      rw [next_pow2_eq_pow (by omega) (by omega), size_pred_eq_clog (by omega)]
      have hlt : n * 100 / 75 < 2 ^ Nat.clog 2 (n * 100 / 75) := by
        rcases Nat.lt_or_ge (n * 100 / 75) (2 ^ Nat.clog 2 (n * 100 / 75))
          with hlt | hge
        · exact hlt
        · have hle : n * 100 / 75 ≤ 2 ^ Nat.clog 2 (n * 100 / 75) :=
            Nat.le_pow_clog (by norm_num) _
          exact absurd (by omega : n * 100 / 75 =
            2 ^ Nat.clog 2 (n * 100 / 75)) (fun hc =>
              floor_not_pow2 hdvd h32 hc)
      have hup : Nat.clog 2 (n * 100 / 75 + 1) ≤
          Nat.clog 2 (n * 100 / 75) :=
        (Nat.le_pow_iff_clog_le (by norm_num)).mp (by omega)
      have hdn : Nat.clog 2 (n * 100 / 75) ≤
          Nat.clog 2 (n * 100 / 75 + 1) :=
        Nat.clog_mono_right 2 (by omega)
      have heq : Nat.clog 2 (n * 100 / 75) =
          Nat.clog 2 (n * 100 / 75 + 1) := by omega
      rw [heq]

/-- In a bucket-level well-formed table, each occupied slot's recorded
displacement equals its distance from its ideal index, in the spec's
subtraction form `psl = (i - (hash & mask)) mod bucket_count`. -/
theorem psl_formula_of_WFb {rt : RobinTable} (h : WFb rt) :
    ∀ i, i < rt.bucket_count → (bucketAt rt.buckets i).key ≠ [] →
      (bucketAt rt.buckets i).psl =
        (i + rt.bucket_count -
          ((bucketAt rt.buckets i).hash &&& rt.mask)) % rt.bucket_count := by
  intro i hi hocc
  obtain ⟨hlen, hpow, hmask, hcount, hlt, hpos, hchain, huniq, hhash⟩ := h
  have hN := pow2_pos hpow
  obtain ⟨hpN, hpI⟩ := hpos i hi hocc
  rw [hmask, land_mask hpow]
  have hqN : (bucketAt rt.buckets i).hash % rt.bucket_count <
      rt.bucket_count := Nat.mod_lt _ hN
  set b := bucketAt rt.buckets i with hb
  rw [← hpI]
  have h1 : (b.hash % rt.bucket_count + b.psl) % rt.bucket_count +
        rt.bucket_count - b.hash % rt.bucket_count =
      (b.hash % rt.bucket_count + b.psl) % rt.bucket_count +
        (rt.bucket_count - b.hash % rt.bucket_count) := by omega
  rw [h1, Nat.mod_add_mod]
  have h2 : b.hash % rt.bucket_count + b.psl +
        (rt.bucket_count - b.hash % rt.bucket_count) =
      b.psl + rt.bucket_count := by omega
  rw [h2, Nat.add_mod_right, Nat.mod_eq_of_lt hpN]

/-!
The ten claims.
-/

/-- C1 (round-trip): a key freshly inserted by a successful `put` (which then
returns the inserted value) is still mapped to that value by `get` after any
sequence of further operations that avoid the key and do not clear the
table. -/
theorem claim_C1 {rt : RobinTable} (h : WF rt) {k : List Nat} (hk : k ≠ [])
    (v : Nat) (a : Bool) (hfresh : ¬ hasKey rt.buckets k)
    (ha : rt.count < rt.expand_at ∨ a = true)
    (ops : List TableOp) (hops : ∀ op ∈ ops, avoidsKey k op) :
    ∃ rt1, robin_table_put a rt k v = some (rt1, v) ∧
      robin_table_get (applyOps ops rt1) k = some v := by
  obtain ⟨rt1, r, hput, hwf1, _, _, _, _, hcase⟩ :=
    robin_table_put_ok h a hk v ha
  rcases hcase with ⟨hno, hrv, hc1, hm1⟩ | ⟨hkv, _, _⟩
  · rw [hrv] at hput
    refine ⟨rt1, hput, ?_⟩
    have hkv1 : hasKeyVal rt1.buckets k v :=
      (hm1 k v hk).mpr (Or.inr ⟨rfl, rfl⟩)
    obtain ⟨hwfF, _, _, _, hstab⟩ := applyOps_props ops hwf1
    exact robin_table_get_hasKeyVal hwfF.1 hk (hstab k v hk hops hkv1)
  · exact absurd (hasKey_iff.mpr ⟨r, hkv⟩) hfresh

/-- C2 (no overwrite, first writer wins): a `put` on a key already stored
with value `v1` returns `v1`, leaves `get` answering `v1`, and changes no
binding — even when the duplicate put triggers a growth resize first. -/
theorem claim_C2 {rt : RobinTable} (h : WF rt) {k : List Nat} (hk : k ≠ [])
    {v1 : Nat} (hv1 : hasKeyVal rt.buckets k v1) (v2 : Nat) (a : Bool)
    (ha : rt.count < rt.expand_at ∨ a = true) :
    ∃ rt2, robin_table_put a rt k v2 = some (rt2, v1) ∧
      robin_table_get rt2 k = some v1 ∧
      (∀ kk vv, kk ≠ [] →
        (hasKeyVal rt2.buckets kk vv ↔ hasKeyVal rt.buckets kk vv)) := by
  obtain ⟨rt2, r, hput, hwf2, _, _, _, _, hcase⟩ :=
    robin_table_put_ok h a hk v2 ha
  rcases hcase with ⟨hno, _, _, _⟩ | ⟨hkv, hc2, hm2⟩
  · exact absurd (hasKey_iff.mpr ⟨v1, hv1⟩) hno
  · have hrv : r = v1 :=
      hasKeyVal_unique h.1.1 h.1.2.2.2.2.2.2.2.1 hk hkv hv1
    rw [hrv] at hput
    refine ⟨rt2, hput, ?_, hm2⟩
    exact robin_table_get_hasKeyVal hwf2.1 hk ((hm2 k v1 hk).mpr hv1)

/-- C3 (deletion completeness): deleting a stored key returns its value,
leaves `get` reporting absent (the key is in no slot), and decreases the
count by exactly one; deleting an absent key reports absent (0) and changes
nothing. -/
theorem claim_C3 {rt : RobinTable} (h : WF rt) (a : Bool) {k : List Nat}
    (hk : k ≠ []) :
    (∀ v, hasKeyVal rt.buckets k v →
      ∃ rt2, robin_table_del a rt k = some (rt2, v) ∧
        robin_table_get rt2 k = some 0 ∧ ¬ hasKey rt2.buckets k ∧
        rt2.count + 1 = rt.count) ∧
    (¬ hasKey rt.buckets k → robin_table_del a rt k = some (rt, 0)) := by
  constructor
  · intro v hkv
    obtain ⟨j, hj, hkeq, hveq⟩ := hkv
    have hjN : j < rt.bucket_count := h.1.1 ▸ hj
    have hocc : (bucketAt rt.buckets j).key ≠ [] := by
      rw [hkeq]
      exact hk
    obtain ⟨rt2, hdel, hwf2, hcnt2, _, _, _, _, hmap2⟩ :=
      robin_table_del_found h a hjN hocc
    rw [hkeq, hveq] at hdel
    rw [hkeq] at hmap2
    have hno2 : ¬ hasKey rt2.buckets k := by
      intro hc
      obtain ⟨vv, hvv⟩ := hasKey_iff.mp hc
      exact absurd rfl ((hmap2 k vv hk).mp hvv).2
    refine ⟨rt2, hdel, robin_table_get_not_hasKey hwf2.1 hk hno2, hno2, ?_⟩
    have hone : 0 < countOcc rt.buckets := countOcc_pos hj hocc
    have hcnteq := h.1.2.2.2.1
    omega
  · intro hno
    exact robin_table_del_absent h.1 a hk
      (fun i hi hc => hno ⟨i, h.1.1 ▸ hi, hc⟩)

/-- C4 (PSL invariant): in any table reached from creation by a sequence of
public operations, every occupied slot's recorded displacement satisfies
`psl = (i - (hash & mask)) mod bucket_count`. -/
theorem claim_C4 (n : Nat) (hf : List Nat → Nat → Nat) (s : Nat)
    (ops : List TableOp) (i : Nat)
    (hi : i < (applyOps ops (robin_table_create n hf s)).bucket_count)
    (hocc :
      (bucketAt (applyOps ops (robin_table_create n hf s)).buckets i).key ≠
        []) :
    (bucketAt (applyOps ops (robin_table_create n hf s)).buckets i).psl =
      (i + (applyOps ops (robin_table_create n hf s)).bucket_count -
        ((bucketAt (applyOps ops (robin_table_create n hf s)).buckets i).hash
          &&& (applyOps ops (robin_table_create n hf s)).mask)) %
        (applyOps ops (robin_table_create n hf s)).bucket_count := by
  obtain ⟨hwf0, _, _, _, _⟩ := robin_table_create_wf n hf s
  obtain ⟨hwfF, _, _, _, _⟩ := applyOps_props ops hwf0
  exact psl_formula_of_WFb hwfF.1 i hi hocc

/-- C5 (backward-shift deletion steps): on a stored key's slot, the source's
deletion loop and the spec's backward shift, run from the same freed slot,
both terminate, the spec decrements the entry count by one, and the two
resulting bucket arrays agree at every index. -/
theorem claim_C5 {rt : RobinTable} (h : WF rt) {j : Nat}
    (hj : j < rt.bucket_count) (hocc : (bucketAt rt.buckets j).key ≠ []) :
    ∃ B1 B2, robin_table_del_loop rt.mask rt.buckets j
        (rt.bucket_count + 1) = some B1 ∧
      backward_shift_spec rt.bucket_count rt.buckets j rt.count
        (rt.bucket_count + 1) = some (B2, rt.count - 1) ∧
      (∀ x, x < rt.bucket_count → bucketAt B1 x = bucketAt B2 x) := by
  obtain ⟨hb, hi32, hipow, hile, hexp, hshr⟩ := h
  have hlen := hb.1
  have hpow := hb.2.1
  have hmask := hb.2.2.1
  have hN2 : 2 ≤ rt.bucket_count := by
    have h32 : (32 : Nat) ≤ rt.init_buckets := hi32
    omega
  have hget := robin_table_get_bucket_found hb hj hocc
  obtain ⟨rt2, hdel, _, _, _, _, _, _, _⟩ :=
    robin_table_del_found ⟨hb, hi32, hipow, hile, hexp, hshr⟩ false hj hocc
  cases hloop : robin_table_del_loop rt.mask rt.buckets j
      (rt.bucket_count + 1) with
  | none =>
    have h1 : robin_table_del false rt (bucketAt rt.buckets j).key = none :=
      by rw [del_eq_found false hget, hloop]
    rw [hdel] at h1
    exact absurd h1 (by simp)
  | some B1 =>
    have hloop' : robin_table_del_loop (rt.bucket_count - 1) rt.buckets j
        (rt.bucket_count + 1) = some B1 := by
      rw [← hmask]
      exact hloop
    rcases del_loop_refines hpow hN2 rt.count (rt.bucket_count + 1)
        rt.buckets rt.buckets j hj hlen hlen (fun _ _ _ => rfl) with
      ⟨hn1, _⟩ | ⟨B1', B2', h1, h2, hag⟩
    · rw [hloop'] at hn1
      exact absurd hn1 (by simp)
    · rw [hloop'] at h1
      injection h1 with hB1
      subst hB1
      exact ⟨B1, B2', rfl, h2, hag⟩

/-- C6 (capacity floor): a created table starts with
`bucket_count = init_buckets`, every sequence of public operations preserves
`init_buckets`, and the bucket count never drops below it. -/
theorem claim_C6 (n : Nat) (hf : List Nat → Nat → Nat) (s : Nat)
    (ops : List TableOp) :
    (robin_table_create n hf s).init_buckets =
      (robin_table_create n hf s).bucket_count ∧
    (applyOps ops (robin_table_create n hf s)).init_buckets =
      (robin_table_create n hf s).init_buckets ∧
    (robin_table_create n hf s).bucket_count ≤
      (applyOps ops (robin_table_create n hf s)).bucket_count := by
  obtain ⟨hwf, hcnt, hbc, hinit, hemp⟩ := robin_table_create_wf n hf s
  obtain ⟨hwfF, hinitF, _, _, _⟩ := applyOps_props ops hwf
  have hie : (robin_table_create n hf s).init_buckets =
      (robin_table_create n hf s).bucket_count := hinit.trans hbc.symm
  refine ⟨hie, hinitF, ?_⟩
  have hle := hwfF.2.2.2.1
  rw [hinitF, hie] at hle
  exact hle

/-- C7 (growth-failure atomicity): when growth is required and the resize
allocation fails, `put` returns the null marker 0 and the resulting table is
the untouched input table (every field equal). -/
theorem claim_C7 {rt : RobinTable} (hg : rt.expand_at ≤ rt.count)
    (key : List Nat) (v : Nat) :
    robin_table_put false rt key v = some (rt, 0) :=
  robin_table_put_fail hg key v

/-- C8 (construction capacity): as long as `n * 100` fits in `size_t`, the
created bucket count equals the spec's `target_capacity(n)` (floor versus
ceiling rounding of `n*100/75` never changes the chosen power of two), and
`create(0)` yields 32 buckets. -/
theorem claim_C8 (n : Nat) (hn : n * 100 < 2 ^ 64)
    (hf : List Nat → Nat → Nat) (s : Nat) :
    (robin_table_create n hf s).bucket_count = target_capacity n ∧
    (robin_table_create 0 hf s).bucket_count = 32 := by
  constructor
  · have hbc : (robin_table_create n hf s).bucket_count =
        robin_table_calc_bucket_count n := rfl
    rw [hbc, calc_eq_target hn]
  · rfl

/-- C9 (hash-strategy substitutability): running any operation sequence on
two tables created with the same expected count but different hash
strategies and seeds yields the same count and the same `get` answer for
every key. -/
theorem claim_C9 (n : Nat) (hf hf' : List Nat → Nat → Nat) (s s' : Nat)
    (ops : List TableOp) {k : List Nat} (hk : k ≠ []) :
    robin_table_count (applyOps ops (robin_table_create n hf s)) =
      robin_table_count (applyOps ops (robin_table_create n hf' s')) ∧
    robin_table_get (applyOps ops (robin_table_create n hf s)) k =
      robin_table_get (applyOps ops (robin_table_create n hf' s')) k := by
  have hsim := simR_applyOps ops (simR_create n hf hf' s s')
  exact ⟨hsim.2.2.1, simR_get hsim hk⟩

/-- C10 (null-value ambiguity): on a concrete reachable table, `put` returns
the null marker 0 both when required growth fails (table full at its grow
threshold, allocation refused) and when it successfully inserts — or finds
as duplicate — a stored null value; and `get` returns the null marker 0 both
for an absent key and for a key present with stored value 0.  So a null
return from `put` or `get` does not determine failure versus absence. -/
theorem claim_C10 :
    ((applyOps ((List.range 24).map (fun i => TableOp.put true [i + 1] 1))
        (robin_table_create 0 (fun k _ => k.headD 0) 0)).expand_at ≤
      (applyOps ((List.range 24).map (fun i => TableOp.put true [i + 1] 1))
        (robin_table_create 0 (fun k _ => k.headD 0) 0)).count) ∧
    (robin_table_put false
        (applyOps ((List.range 24).map (fun i => TableOp.put true [i + 1] 1))
          (robin_table_create 0 (fun k _ => k.headD 0) 0)) [100] 7 =
      some (applyOps ((List.range 24).map
          (fun i => TableOp.put true [i + 1] 1))
        (robin_table_create 0 (fun k _ => k.headD 0) 0), 0)) ∧
    (∃ rt2, robin_table_put true
        (robin_table_create 0 (fun k _ => k.headD 0) 0) [5] 0 =
          some (rt2, 0) ∧
      hasKeyVal rt2.buckets [5] 0 ∧
      robin_table_put true rt2 [5] 9 = some (rt2, 0) ∧
      robin_table_get rt2 [5] = some 0) ∧
    (¬ hasKey (robin_table_create 0 (fun k _ => k.headD 0) 0).buckets [5]) ∧
    (robin_table_get (robin_table_create 0 (fun k _ => k.headD 0) 0) [5] =
      some 0) := by
  refine ⟨by decide, rfl,
    ⟨applyOp (robin_table_create 0 (fun k _ => k.headD 0) 0)
        (TableOp.put true [5] 0),
      rfl, ⟨5, by decide, by decide, by decide⟩, rfl, rfl⟩, ?_, rfl⟩
  rintro ⟨i, hi, hkk⟩
  rw [show (robin_table_create 0 (fun k _ => k.headD 0) 0).buckets =
      List.replicate 32 emptyBucket from rfl,
    bucketAt_replicate_empty] at hkk
  exact absurd hkk (by decide)

/-- C1 at a concrete input: insert key `[3]` with value 7 into a fresh
table, run an unrelated lookup, and read the value back. -/
theorem claim_C1_witness :
    ∃ rt1, robin_table_put true
        (robin_table_create 0 (fun k _ => k.headD 0) 0) [3] 7 =
          some (rt1, 7) ∧
      robin_table_get (applyOps [TableOp.get [4]] rt1) [3] = some 7 := by
  have hfresh : ¬ hasKey
      (robin_table_create 0 (fun k _ => k.headD 0) 0).buckets [3] := by
    rintro ⟨i, hi, hkk⟩
    rw [show (robin_table_create 0 (fun k _ => k.headD 0) 0).buckets =
        List.replicate 32 emptyBucket from rfl,
      bucketAt_replicate_empty] at hkk
    exact absurd hkk (by decide)
  refine claim_C1 (robin_table_create_wf 0 (fun k _ => k.headD 0) 0).1
    (by decide) 7 true hfresh (Or.inr rfl) [TableOp.get [4]] ?_
  intro op hop
  rw [List.mem_singleton] at hop
  subst hop
  trivial

/-- C2 at a concrete input: on a table storing `[3] ↦ 7`, a second put of 9
under `[3]` returns 7 and changes nothing. -/
theorem claim_C2_witness :
    ∃ rt2, robin_table_put false
        (applyOp (robin_table_create 0 (fun k _ => k.headD 0) 0)
          (TableOp.put true [3] 7)) [3] 9 = some (rt2, 7) ∧
      robin_table_get rt2 [3] = some 7 ∧
      (∀ kk vv, kk ≠ [] → (hasKeyVal rt2.buckets kk vv ↔
        hasKeyVal (applyOp (robin_table_create 0 (fun k _ => k.headD 0) 0)
          (TableOp.put true [3] 7)).buckets kk vv)) :=
  claim_C2
    (applyOp_props (robin_table_create_wf 0 (fun k _ => k.headD 0) 0).1
      (TableOp.put true [3] 7)).1
    (by decide) ⟨3, by decide, by decide, by decide⟩ 9 false
    (Or.inl (by decide))

/-- C3 at a concrete input: deleting from a table storing `[3] ↦ 7`. -/
theorem claim_C3_witness :
    (∀ v, hasKeyVal
        (applyOp (robin_table_create 0 (fun k _ => k.headD 0) 0)
          (TableOp.put true [3] 7)).buckets [3] v →
      ∃ rt2, robin_table_del false
          (applyOp (robin_table_create 0 (fun k _ => k.headD 0) 0)
            (TableOp.put true [3] 7)) [3] = some (rt2, v) ∧
        robin_table_get rt2 [3] = some 0 ∧ ¬ hasKey rt2.buckets [3] ∧
        rt2.count + 1 =
          (applyOp (robin_table_create 0 (fun k _ => k.headD 0) 0)
            (TableOp.put true [3] 7)).count) ∧
    (¬ hasKey (applyOp (robin_table_create 0 (fun k _ => k.headD 0) 0)
        (TableOp.put true [3] 7)).buckets [3] →
      robin_table_del false
        (applyOp (robin_table_create 0 (fun k _ => k.headD 0) 0)
          (TableOp.put true [3] 7)) [3] =
      some (applyOp (robin_table_create 0 (fun k _ => k.headD 0) 0)
        (TableOp.put true [3] 7), 0)) :=
  claim_C3
    (applyOp_props (robin_table_create_wf 0 (fun k _ => k.headD 0) 0).1
      (TableOp.put true [3] 7)).1
    false (by decide)

/-- C4 at a concrete input: the PSL formula at the occupied slot 3 of a
table built by one put. -/
theorem claim_C4_witness :
    (bucketAt (applyOps [TableOp.put true [3] 7]
        (robin_table_create 0 (fun k _ => k.headD 0) 0)).buckets 3).psl =
      (3 + (applyOps [TableOp.put true [3] 7]
          (robin_table_create 0 (fun k _ => k.headD 0) 0)).bucket_count -
        ((bucketAt (applyOps [TableOp.put true [3] 7]
            (robin_table_create 0 (fun k _ => k.headD 0) 0)).buckets 3).hash
          &&& (applyOps [TableOp.put true [3] 7]
            (robin_table_create 0 (fun k _ => k.headD 0) 0)).mask)) %
        (applyOps [TableOp.put true [3] 7]
          (robin_table_create 0 (fun k _ => k.headD 0) 0)).bucket_count :=
  claim_C4 0 (fun k _ => k.headD 0) 0 [TableOp.put true [3] 7] 3
    (by decide) (by decide)

/-- C5 at a concrete input: the deletion loop and the spec's backward shift
agree when deleting key `[3]` from a table storing `[3] ↦ 7`. -/
theorem claim_C5_witness :
    ∃ B1 B2, robin_table_del_loop
        (applyOp (robin_table_create 0 (fun k _ => k.headD 0) 0)
          (TableOp.put true [3] 7)).mask
        (applyOp (robin_table_create 0 (fun k _ => k.headD 0) 0)
          (TableOp.put true [3] 7)).buckets 3
        ((applyOp (robin_table_create 0 (fun k _ => k.headD 0) 0)
          (TableOp.put true [3] 7)).bucket_count + 1) = some B1 ∧
      backward_shift_spec
        (applyOp (robin_table_create 0 (fun k _ => k.headD 0) 0)
          (TableOp.put true [3] 7)).bucket_count
        (applyOp (robin_table_create 0 (fun k _ => k.headD 0) 0)
          (TableOp.put true [3] 7)).buckets 3
        (applyOp (robin_table_create 0 (fun k _ => k.headD 0) 0)
          (TableOp.put true [3] 7)).count
        ((applyOp (robin_table_create 0 (fun k _ => k.headD 0) 0)
          (TableOp.put true [3] 7)).bucket_count + 1) =
        some (B2, (applyOp (robin_table_create 0 (fun k _ => k.headD 0) 0)
          (TableOp.put true [3] 7)).count - 1) ∧
      (∀ x, x < (applyOp (robin_table_create 0 (fun k _ => k.headD 0) 0)
          (TableOp.put true [3] 7)).bucket_count →
        bucketAt B1 x = bucketAt B2 x) :=
  claim_C5
    (applyOp_props (robin_table_create_wf 0 (fun k _ => k.headD 0) 0).1
      (TableOp.put true [3] 7)).1
    (by decide) (by decide)

/-- C7 at a concrete input: a table at its grow threshold with a refused
allocation. -/
theorem claim_C7_witness :
    robin_table_put false
      (⟨[], 0, 0, 0, 0, 0, 0, 0, fun _ _ => 0⟩ : RobinTable) [1] 5 =
      some ((⟨[], 0, 0, 0, 0, 0, 0, 0, fun _ _ => 0⟩ : RobinTable), 0) :=
  claim_C7 (by decide) [1] 5

/-- C8 at a concrete input: `n = 100`. -/
theorem claim_C8_witness :
    (robin_table_create 100 (fun k _ => k.headD 0) 0).bucket_count =
      target_capacity 100 ∧
    (robin_table_create 0 (fun k _ => k.headD 0) 0).bucket_count = 32 :=
  claim_C8 100 (by decide) (fun k _ => k.headD 0) 0

/-- C9 at a concrete input: one insert under two different hash strategies
and seeds. -/
theorem claim_C9_witness :
    robin_table_count (applyOps [TableOp.put true [1] 5]
        (robin_table_create 0 (fun k _ => k.headD 0) 0)) =
      robin_table_count (applyOps [TableOp.put true [1] 5]
        (robin_table_create 0 (fun k _ => 2 * k.headD 0) 1)) ∧
    robin_table_get (applyOps [TableOp.put true [1] 5]
        (robin_table_create 0 (fun k _ => k.headD 0) 0)) [1] =
      robin_table_get (applyOps [TableOp.put true [1] 5]
        (robin_table_create 0 (fun k _ => 2 * k.headD 0) 1)) [1] :=
  claim_C9 0 (fun k _ => k.headD 0) (fun k _ => 2 * k.headD 0) 0 1
    [TableOp.put true [1] 5] (by decide)

end RobinHood
